import Mathlib

/-! ## SpiceDB: membership sets and caveat environments

A shallow embedding of `pkg/membership/membership.go` and `pkg/caveats/env.go`.

* Go maps `map[string]V` are association lists with unique keys (`GoMap`).
* Methods with a pointer receiver take the receiver's state and return the
  state after the call next to the returned values.
* A Go `panic` is the `Except.error` outcome carrying the panic message.
* A pointer to an identifier is modelled by the identifier it points to; the
  nil pointer is modelled where the source tests for it (`Expanded`).
-/

namespace SpiceDB

/-- A Go `map[string]V`: a finite map with unique string keys. A `range` over
the map visits `entries`; Go leaves the order of that visit unspecified. -/
abbrev GoMap (V : Type) : Type := AList (fun _ : String => V)

/-! ## pkg/caveats/env.go -/

namespace Caveats

/-- The struct `Environment`. Its field `variables` (a reserved word here, hence
`variables_`) has type `map[string]types.VariableType`; `types.VariableType` is
declared outside the sources at hand and is a parameter. -/
structure Environment (VariableType : Type) where
  variables_ : GoMap VariableType

section
variable {VariableType : Type}

/-- `NewEnvironment` creates an environment with an empty variable map. -/
def NewEnvironment : Environment VariableType :=
  { variables_ := ∅ }

/-- `Environment.AddVariable`: the state of the receiver after the call and the
returned `error` (`none` is Go's `nil`). -/
def Environment.AddVariable (e : Environment VariableType) (name : String)
    (varType : VariableType) : Environment VariableType × Option String :=
  match e.variables_.lookup name with
  | some _ => (e, some ("variable `" ++ name ++ "` already exists"))
  | none => ({ variables_ := e.variables_.insert name varType }, none)

/-- The `for varName, varType := range vars` loop of `EnvForVariables`, run over
the entries still to be visited; it returns at the first failing `AddVariable`. -/
def EnvForVariables.loop (e : Environment VariableType) :
    List (Σ _ : String, VariableType) → Except String (Environment VariableType)
  | [] => .ok e
  | ⟨varName, varType⟩ :: rest =>
    match e.AddVariable varName varType with
    | (_, some err) => .error err
    | (e', none) => EnvForVariables.loop e' rest

/-- `EnvForVariables`: `.ok e` is the Go result `(e, nil)` and `.error err` is
`(nil, err)`. -/
def EnvForVariables (vars : GoMap VariableType) : Except String (Environment VariableType) :=
  EnvForVariables.loop NewEnvironment vars.entries

/-- `MustEnvForVariables`: `.error err` is `panic(err)`. -/
def MustEnvForVariables (vars : GoMap VariableType) : Except String (Environment VariableType) :=
  match EnvForVariables vars with
  | .error err => .error err
  | .ok env => .ok env

end

/-- An option handed to `cel.NewEnv`. The type `cel.EnvOption` belongs to the CEL
library; an option is kept here as the call that builds it, for the calls made
in `asCelEnvironment`: `cel.DefaultUTCTimeZone(enabled)`,
`cel.OptionalTypes(cel.OptionalTypesVersion(version))`, `cel.EnableMacroCallTracking()`
and `cel.Variable(name, celType)`. Modelled from the spec: the options of the fixed
catalog of custom types and their methods (`types.CustomTypes` and
`types.CustomMethodsOnTypes`, declared outside the sources at hand) declare custom
types and methods; they are the constructor `catalog`, over a parameter type. -/
inductive EnvOption (CatalogOption CelType : Type) where
  | catalog (option : CatalogOption)
  | DefaultUTCTimeZone (enabled : Bool)
  | OptionalTypes (version : Nat)
  | EnableMacroCallTracking
  | Variable (name : String) (celType : CelType)
deriving DecidableEq, Repr

section
variable {VariableType CatalogOption CelType Env : Type}

/-- The slice `opts` that `asCelEnvironment` hands to `cel.NewEnv`, built by the
appends of the source in their order. The parameters are `types.CustomTypes` (a
map from a type name to its options), `types.CustomMethodsOnTypes` and the method
`VariableType.CelType`, all three declared outside the sources at hand. -/
def Environment.asCelEnvironment.opts (CustomTypes : GoMap (List CatalogOption))
    (CustomMethodsOnTypes : List CatalogOption) (celTypeOf : VariableType → CelType)
    (e : Environment VariableType) : List (EnvOption CatalogOption CelType) :=
  let opts0 : List (EnvOption CatalogOption CelType) := []
  let opts1 := CustomTypes.entries.foldl
    (fun opts customTypeOpts => opts ++ customTypeOpts.2.map EnvOption.catalog) opts0
  let opts2 := opts1 ++ CustomMethodsOnTypes.map EnvOption.catalog
  let opts3 := opts2 ++ [EnvOption.DefaultUTCTimeZone true]
  let opts4 := opts3 ++ [EnvOption.OptionalTypes 0]
  let opts5 := opts4 ++ [EnvOption.EnableMacroCallTracking]
  e.variables_.entries.foldl
    (fun opts variable_ => opts ++ [EnvOption.Variable variable_.1 (celTypeOf variable_.2)]) opts5

/-- `Environment.asCelEnvironment`: the result of `cel.NewEnv(opts...)`; the
constructor `cel.NewEnv` of the CEL library is a parameter. -/
def Environment.asCelEnvironment (NewEnv : List (EnvOption CatalogOption CelType) → Except String Env)
    (CustomTypes : GoMap (List CatalogOption)) (CustomMethodsOnTypes : List CatalogOption)
    (celTypeOf : VariableType → CelType) (e : Environment VariableType) : Except String Env :=
  NewEnv (Environment.asCelEnvironment.opts CustomTypes CustomMethodsOnTypes celTypeOf e)

/-- The options of the fixed catalog, in the order in which `asCelEnvironment`
appends them: those of every custom type, then the custom methods. -/
def catalogOptions (CustomTypes : GoMap (List CatalogOption))
    (CustomMethodsOnTypes : List CatalogOption) : List CatalogOption :=
  CustomTypes.entries.flatMap (fun customTypeOpts => customTypeOpts.2) ++ CustomMethodsOnTypes

/-- The three policy options: UTC as the default time zone, optional types, and the
tracking of macro calls. -/
def policyOptions : List (EnvOption CatalogOption CelType) :=
  [EnvOption.DefaultUTCTimeZone true, EnvOption.OptionalTypes 0, EnvOption.EnableMacroCallTracking]

/-- The variable declarations of a registry, one per entry. -/
def variableOptions (celTypeOf : VariableType → CelType) (e : Environment VariableType) :
    List (EnvOption CatalogOption CelType) :=
  e.variables_.entries.map (fun variable_ => EnvOption.Variable variable_.1 (celTypeOf variable_.2))

/-- A catalog with one custom type, for the evaluation of the option list. -/
def exampleCustomTypes : GoMap (List String) :=
  (∅ : GoMap (List String)).insert "ipaddress" ["cel.Types(ipaddress)"]

/-- A list with one custom method, for the evaluation of the option list. -/
def exampleCustomMethods : List String :=
  ["cel.Function(in_cidr)"]

/-- The registry holding the one variable `x` of type `"int"`. -/
def exampleRegistry : Environment String :=
  { variables_ := (∅ : GoMap String).insert "x" "int" }

/-- Whether an option is one of the calls `cel.DefaultUTCTimeZone`, `cel.OptionalTypes`,
`cel.EnableMacroCallTracking`. -/
def EnvOption.isPolicy : EnvOption CatalogOption CelType → Bool
  | .DefaultUTCTimeZone _ => true
  | .OptionalTypes _ => true
  | .EnableMacroCallTracking => true
  | _ => false

/-- The catalog option inside a `catalog` option. -/
def EnvOption.asCatalog : EnvOption CatalogOption CelType → Option CatalogOption
  | .catalog option => some option
  | _ => none

/-- The name and the type declared by a `cel.Variable` option. -/
def EnvOption.asVariable : EnvOption CatalogOption CelType → Option (String × CelType)
  | .Variable name celType => some (name, celType)
  | _ => none

end

end Caveats

/-! ## pkg/membership/membership.go -/

namespace Membership

/-- The message `pb.ObjectAndRelation`: an object, and a relation on it. -/
structure ObjectAndRelation where
  Namespace : String
  ObjectId : String
  Relation : String
deriving DecidableEq, Repr

/-- The values of `pb.SetOperationUserset_Operation` are `int32` constants declared
outside the sources at hand; the walk only compares an operation with the three
named ones. -/
abbrev Operation : Type := Int

/-- Modelled from the spec: the enumeration constant of the union operation, one
of the three known set operations (distinct values of one enumeration). -/
def SetOperationUserset_UNION : Operation := 1

/-- Modelled from the spec: the enumeration constant of the intersection operation. -/
def SetOperationUserset_INTERSECTION : Operation := 2

/-- Modelled from the spec: the enumeration constant of the exclusion operation. -/
def SetOperationUserset_EXCLUSION : Operation := 3

/-- The message `pb.RelationTupleTreeNode`: the optional `Expanded` identifier
and the `NodeType` oneof. `intermediate` is `RelationTupleTreeNode_IntermediateNode`
with its `Operation` and `ChildNodes`, `leaf` is `RelationTupleTreeNode_LeafNode`
with the usersets of its `Users`, and `unknown` is a node whose `NodeType` is
neither of the two. -/
inductive RelationTupleTreeNode where
  | intermediate (Expanded : Option ObjectAndRelation) (Operation : Operation)
      (ChildNodes : List RelationTupleTreeNode)
  | leaf (Expanded : Option ObjectAndRelation) (Users : List ObjectAndRelation)
  | unknown (Expanded : Option ObjectAndRelation)

/-- Modelled from the spec: `tuple.ONRSet`, the Relationship-Path Set, is declared
outside the sources at hand. It is a de-duplicating set of identifiers, kept here
in insertion order, where two identifiers are the same iff their canonical string
forms are the same. -/
structure ONRSet where
  onrs : List ObjectAndRelation
deriving DecidableEq, Repr

/-- The struct `FoundSubject`. -/
structure FoundSubject where
  subject : ObjectAndRelation
  relationships : ONRSet
deriving DecidableEq, Repr

/-- The struct `FoundSubjects`. -/
structure FoundSubjects where
  subjects : GoMap FoundSubject
deriving DecidableEq

/-- The struct `MembershipSet`. -/
structure MembershipSet where
  objectsAndRelations : GoMap FoundSubjects
deriving DecidableEq

/-- Modelled from the spec: `tuple.NewONRSet`, the empty Relationship-Path Set. -/
def NewONRSet : ONRSet :=
  { onrs := [] }

/-- Modelled from the spec: `ONRSet.AsSlice`, the export of the set as a sequence. -/
def ONRSet.AsSlice (s : ONRSet) : List ObjectAndRelation :=
  s.onrs

/-- `MembershipSet.SubjectsByONR`. -/
def MembershipSet.SubjectsByONR (ms : MembershipSet) : GoMap FoundSubjects :=
  ms.objectsAndRelations

/-- `FoundSubjects.ListFound`: appends every value of the map to `found`. -/
def FoundSubjects.ListFound (fs : FoundSubjects) : List FoundSubject :=
  fs.subjects.entries.foldl (fun found sub => found ++ [sub.2]) []

/-- `FoundSubject.Subject`. -/
def FoundSubject.Subject (fs : FoundSubject) : ObjectAndRelation :=
  fs.subject

/-- `FoundSubject.Relationships`. -/
def FoundSubject.Relationships (fs : FoundSubject) : List ObjectAndRelation :=
  fs.relationships.AsSlice

/-- `NewMembershipSet`. -/
def NewMembershipSet : MembershipSet :=
  { objectsAndRelations := ∅ }

section
/- `tuple.StringONR`, the canonical string form of an identifier, is declared
outside the sources at hand; the code only uses it as a map key, and it is a
parameter of the development. -/
variable (StringONR : ObjectAndRelation → String)

/-- Modelled from the spec: the membership test of the Relationship-Path Set,
by canonical string form. -/
def ONRSet.Has (s : ONRSet) (onr : ObjectAndRelation) : Bool :=
  s.onrs.any (fun o => StringONR o == StringONR onr)

/-- Modelled from the spec: `ONRSet.Add`; adding an identifier that is already
present is a no-op. -/
def ONRSet.Add (s : ONRSet) (onr : ObjectAndRelation) : ONRSet :=
  if s.Has StringONR onr then s else { onrs := s.onrs ++ [onr] }

/-- `FoundSubjects.LookupSubject`: `some found` is the Go result `(found, true)`
and `none` is `(FoundSubject{}, false)`. -/
def FoundSubjects.LookupSubject (fs : FoundSubjects) (subject : ObjectAndRelation) :
    Option FoundSubject :=
  let onrString := StringONR subject
  fs.subjects.lookup onrString

/-- The body of the `for _, user := range typed.LeafNode.Users` loop of
`populateFoundSubjects`. The map holds `FoundSubject` values whose `relationships`
field is a pointer, so `relationships.Add` on the entry read back from the map
updates the set of the stored entry. Reading a missing key would give the zero
`FoundSubject`, whose `relationships` is nil. -/
def populateFoundSubjects.user (relationship : ObjectAndRelation)
    (foundSubjectsMap : GoMap FoundSubject) (user : ObjectAndRelation) :
    Except String (GoMap FoundSubject) :=
  let subjectONRString := StringONR user
  let foundSubjectsMap1 :=
    match foundSubjectsMap.lookup subjectONRString with
    | some _ => foundSubjectsMap
    | none =>
      foundSubjectsMap.insert subjectONRString { subject := user, relationships := NewONRSet }
  match foundSubjectsMap1.lookup subjectONRString with
  | some found =>
    .ok (foundSubjectsMap1.insert subjectONRString
      { found with relationships := found.relationships.Add StringONR relationship })
  | none => .error "invalid memory address or nil pointer dereference"

/-- The `for _, user := range typed.LeafNode.Users` loop of `populateFoundSubjects`. -/
def populateFoundSubjects.users (relationship : ObjectAndRelation) :
    GoMap FoundSubject → List ObjectAndRelation → Except String (GoMap FoundSubject)
  | foundSubjectsMap, [] => .ok foundSubjectsMap
  | foundSubjectsMap, user :: rest =>
    match populateFoundSubjects.user StringONR relationship foundSubjectsMap user with
    | .error p => .error p
    | .ok foundSubjectsMap1 => populateFoundSubjects.users relationship foundSubjectsMap1 rest

mutual
/-- `MembershipSet.populateFoundSubjects`: the working map after the walk of
`treeNode`, or the panic that stopped the walk. The receiver is not used by
the source function. -/
def populateFoundSubjects (foundSubjectsMap : GoMap FoundSubject) (rootONR : ObjectAndRelation) :
    RelationTupleTreeNode → Except String (GoMap FoundSubject)
  | .intermediate _ operation childNodes =>
    if operation = SetOperationUserset_UNION ∨ operation = SetOperationUserset_INTERSECTION ∨
        operation = SetOperationUserset_EXCLUSION then
      populateFoundSubjects.children foundSubjectsMap rootONR childNodes
    else
      .error "unknown expand operation"
  | .leaf expanded users =>
    let relationship :=
      match expanded with
      | some e => e
      | none => rootONR
    populateFoundSubjects.users StringONR relationship foundSubjectsMap users
  | .unknown _ => .error "unknown TreeNode type"
/-- The `for _, child := range typed.IntermediateNode.ChildNodes` loop of
`populateFoundSubjects`. -/
def populateFoundSubjects.children (foundSubjectsMap : GoMap FoundSubject)
    (rootONR : ObjectAndRelation) :
    List RelationTupleTreeNode → Except String (GoMap FoundSubject)
  | [] => .ok foundSubjectsMap
  | child :: rest =>
    match populateFoundSubjects foundSubjectsMap rootONR child with
    | .error p => .error p
    | .ok foundSubjectsMap1 => populateFoundSubjects.children foundSubjectsMap1 rootONR rest
end

/-- `MembershipSet.AddExpansion`: the state of the receiver after the call, and
either the returned pair `(FoundSubjects, added)` or the panic raised by the walk.
The working map is local to the call, so a panic leaves the receiver as it was. -/
def MembershipSet.AddExpansion (ms : MembershipSet) (onr : ObjectAndRelation)
    (expansion : RelationTupleTreeNode) :
    MembershipSet × Except String (FoundSubjects × Bool) :=
  let onrString := StringONR onr
  match ms.objectsAndRelations.lookup onrString with
  | some existing => (ms, .ok (existing, false))
  | none =>
    match populateFoundSubjects StringONR ∅ onr expansion with
    | .error p => (ms, .error p)
    | .ok foundSubjectsMap =>
      let fs : FoundSubjects := { subjects := foundSubjectsMap }
      ({ objectsAndRelations := ms.objectsAndRelations.insert onrString fs }, .ok (fs, true))

/-! ### Vocabulary of the properties

The definitions below are not code of the repository: they name what the
properties of the walk speak about (the nodes of a tree, valid trees, the leaf
occurrences of subjects). -/

/-- An operation is known when it is one of union, intersection, exclusion. -/
def knownOperation (operation : Operation) : Bool :=
  decide (operation = SetOperationUserset_UNION ∨ operation = SetOperationUserset_INTERSECTION ∨
    operation = SetOperationUserset_EXCLUSION)

/-- A node is malformed when it is an intermediate node whose operation is not
known, or a node that is neither intermediate nor leaf. -/
def malformedNode : RelationTupleTreeNode → Bool
  | .intermediate _ operation _ => !knownOperation operation
  | .leaf _ _ => false
  | .unknown _ => true

mutual
/-- All nodes of a tree: the node itself and the nodes of its children. -/
def nodes : RelationTupleTreeNode → List RelationTupleTreeNode
  | .intermediate expanded operation childNodes =>
    .intermediate expanded operation childNodes :: nodes.children childNodes
  | .leaf expanded users => [.leaf expanded users]
  | .unknown expanded => [.unknown expanded]
/-- All nodes of the trees of a list. -/
def nodes.children : List RelationTupleTreeNode → List RelationTupleTreeNode
  | [] => []
  | child :: rest => nodes child ++ nodes.children rest
end

/-- A valid tree: every node is a leaf or an intermediate node with a known
operation. -/
def valid (treeNode : RelationTupleTreeNode) : Bool :=
  (nodes treeNode).all (fun node => !malformedNode node)

mutual
/-- The leaf occurrences of a tree walked under the root `rootONR`, in the order
of the walk: each subject listed in a leaf, paired with the identifier attributed
by that leaf (its `Expanded` identifier when it has one, `rootONR` otherwise). -/
def leafOccurrences (rootONR : ObjectAndRelation) :
    RelationTupleTreeNode → List (ObjectAndRelation × ObjectAndRelation)
  | .intermediate _ _ childNodes => leafOccurrences.children rootONR childNodes
  | .leaf (some e) users => users.map (fun user => (user, e))
  | .leaf none users => users.map (fun user => (user, rootONR))
  | .unknown _ => []
/-- The leaf occurrences of the trees of a list. -/
def leafOccurrences.children (rootONR : ObjectAndRelation) :
    List RelationTupleTreeNode → List (ObjectAndRelation × ObjectAndRelation)
  | [] => []
  | child :: rest => leafOccurrences rootONR child ++ leafOccurrences.children rootONR rest
end

/-- What one leaf occurrence `(subject, relationship)` does to the working map:
the entry of the subject is created if need be, and the relationship is added to
the set of the entry. -/
def recordOccurrence (foundSubjectsMap : GoMap FoundSubject)
    (occurrence : ObjectAndRelation × ObjectAndRelation) : GoMap FoundSubject :=
  match foundSubjectsMap.lookup (StringONR occurrence.1) with
  | some found =>
    foundSubjectsMap.insert (StringONR occurrence.1)
      { found with relationships := found.relationships.Add StringONR occurrence.2 }
  | none =>
    foundSubjectsMap.insert (StringONR occurrence.1)
      { subject := occurrence.1, relationships := NewONRSet.Add StringONR occurrence.2 }

mutual
/-- Two trees that differ at most in which known operation their intermediate
nodes declare. -/
def sameUpToOperation : RelationTupleTreeNode → RelationTupleTreeNode → Bool
  | .intermediate e1 o1 c1, .intermediate e2 o2 c2 =>
    decide (e1 = e2) && knownOperation o1 && knownOperation o2 &&
      sameUpToOperation.children c1 c2
  | .leaf e1 u1, .leaf e2 u2 => decide (e1 = e2) && decide (u1 = u2)
  | _, _ => false
/-- Two lists of trees that differ at most in the known operations declared. -/
def sameUpToOperation.children :
    List RelationTupleTreeNode → List RelationTupleTreeNode → Bool
  | [], [] => true
  | a :: as, b :: bs => sameUpToOperation a b && sameUpToOperation.children as bs
  | _, _ => false
end

mutual
/-- Two trees that differ at most in the `Expanded` identifier of their
intermediate nodes. -/
def sameUpToIntermediateExpanded : RelationTupleTreeNode → RelationTupleTreeNode → Bool
  | .intermediate _ o1 c1, .intermediate _ o2 c2 =>
    decide (o1 = o2) && sameUpToIntermediateExpanded.children c1 c2
  | .leaf e1 u1, .leaf e2 u2 => decide (e1 = e2) && decide (u1 = u2)
  | .unknown e1, .unknown e2 => decide (e1 = e2)
  | _, _ => false
/-- Two lists of trees that differ at most in the `Expanded` identifier of
intermediate nodes. -/
def sameUpToIntermediateExpanded.children :
    List RelationTupleTreeNode → List RelationTupleTreeNode → Bool
  | [], [] => true
  | a :: as, b :: bs =>
    sameUpToIntermediateExpanded a b && sameUpToIntermediateExpanded.children as bs
  | _, _ => false
end

/-- The tree `t2` is obtained from `t1` by permuting the children of intermediate
nodes and the subjects listed in leaves, any number of times, at any depth. -/
inductive TreePerm : RelationTupleTreeNode → RelationTupleTreeNode → Prop where
  | refl (t : RelationTupleTreeNode) : TreePerm t t
  | trans {t1 t2 t3 : RelationTupleTreeNode} : TreePerm t1 t2 → TreePerm t2 t3 → TreePerm t1 t3
  | users (e : Option ObjectAndRelation) {us1 us2 : List ObjectAndRelation} :
    us1.Perm us2 → TreePerm (.leaf e us1) (.leaf e us2)
  | children (e : Option ObjectAndRelation) (op : Operation)
    {cs1 cs2 : List RelationTupleTreeNode} :
    cs1.Perm cs2 → TreePerm (.intermediate e op cs1) (.intermediate e op cs2)
  | child (e : Option ObjectAndRelation) (op : Operation)
    (before after : List RelationTupleTreeNode) {c1 c2 : RelationTupleTreeNode} :
    TreePerm c1 c2 →
    TreePerm (.intermediate e op (before ++ c1 :: after)) (.intermediate e op (before ++ c2 :: after))

/-- The membership set after a sequence of `AddExpansion` calls, each given by its
root and its tree, made one after the other on `ms`. -/
def MembershipSet.afterCalls (ms : MembershipSet)
    (calls : List (ObjectAndRelation × RelationTupleTreeNode)) : MembershipSet :=
  calls.foldl (fun ms1 call => (ms1.AddExpansion StringONR call.1 call.2).1) ms

/-- The identifier `document:doc1#viewer`. -/
def doc1Viewer : ObjectAndRelation :=
  { Namespace := "document", ObjectId := "doc1", Relation := "viewer" }

/-- The identifier `document:doc1#editor`. -/
def doc1Editor : ObjectAndRelation :=
  { Namespace := "document", ObjectId := "doc1", Relation := "editor" }

/-- The subject `user:alice#...`. -/
def alice : ObjectAndRelation :=
  { Namespace := "user", ObjectId := "alice", Relation := "..." }

/-- The tree `union(leaf[alice, expanded-as doc1#viewer], leaf[alice, expanded-as
doc1#editor])`. -/
def scenarioTree : RelationTupleTreeNode :=
  .intermediate none SetOperationUserset_UNION
    [.leaf (some doc1Viewer) [alice], .leaf (some doc1Editor) [alice]]

/-- The tree `scenarioTree` with intersection in place of union. -/
def scenarioTreeIntersection : RelationTupleTreeNode :=
  .intermediate none SetOperationUserset_INTERSECTION
    [.leaf (some doc1Viewer) [alice], .leaf (some doc1Editor) [alice]]

/-- The identifier `document:doc1#owner`. -/
def doc1Owner : ObjectAndRelation :=
  { Namespace := "document", ObjectId := "doc1", Relation := "owner" }

/-- A tree whose intermediate nodes carry `Expanded` identifiers, above a leaf
without one. -/
def expandedAboveTree : RelationTupleTreeNode :=
  .intermediate (some doc1Editor) SetOperationUserset_UNION
    [.intermediate (some doc1Owner) SetOperationUserset_EXCLUSION [.leaf none [alice]]]

/-- The tree `expandedAboveTree` without the `Expanded` identifiers of its
intermediate nodes. -/
def expandedAboveTreeBare : RelationTupleTreeNode :=
  .intermediate none SetOperationUserset_UNION
    [.intermediate none SetOperationUserset_EXCLUSION [.leaf none [alice]]]

/-- A malformed tree in which the walk reaches a leaf before the malformed node. -/
def lateMalformedTree : RelationTupleTreeNode :=
  .intermediate none SetOperationUserset_UNION [.leaf (some doc1Viewer) [alice], .unknown none]

/-- The tree `scenarioTree` with its two children swapped. -/
def scenarioTreeSwapped : RelationTupleTreeNode :=
  .intermediate none SetOperationUserset_UNION
    [.leaf (some doc1Editor) [alice], .leaf (some doc1Viewer) [alice]]

/-- A malformed tree: its root declares the operation `0`, which is not known. -/
def malformedTree : RelationTupleTreeNode :=
  .intermediate none 0 [.leaf (some doc1Viewer) [alice]]

/-- The canonical string form `namespace:object_id#relation`, an instance of the
parameter `StringONR` at which the development is evaluated. -/
def canonicalString (onr : ObjectAndRelation) : String :=
  onr.Namespace ++ ":" ++ onr.ObjectId ++ "#" ++ onr.Relation

end

end Membership

/-! ## Theorems: the variable registry -/

namespace Caveats

section
variable {VariableType : Type}

theorem addVariable_of_absent (e : Environment VariableType) (name : String)
    (varType : VariableType) (h : name ∉ e.variables_) :
    e.AddVariable name varType = ({ variables_ := e.variables_.insert name varType }, none) := by
  have hn : e.variables_.lookup name = none := AList.lookup_eq_none.mpr h
  simp [Environment.AddVariable, hn]

theorem addVariable_of_present (e : Environment VariableType) (name : String)
    (varType : VariableType) (h : name ∈ e.variables_) :
    e.AddVariable name varType = (e, some ("variable `" ++ name ++ "` already exists")) := by
  obtain ⟨v, hv⟩ := Option.isSome_iff_exists.mp (AList.lookup_isSome.mpr h)
  simp [Environment.AddVariable, hv]

/-- C5: `AddVariable(name, type)` returns an error iff `name` is already a key of
the registry; when it succeeds, the registry afterwards maps `name` to `type` and
every other name to what it mapped to before. -/
theorem addVariable_error_iff_and_frame (e : Environment VariableType) (name : String)
    (varType : VariableType) :
    ((e.AddVariable name varType).2.isSome ↔ name ∈ e.variables_) ∧
    ((e.AddVariable name varType).2 = none →
      (e.AddVariable name varType).1.variables_.lookup name = some varType ∧
      ∀ other : String, other ≠ name →
        (e.AddVariable name varType).1.variables_.lookup other = e.variables_.lookup other) := by
  by_cases h : name ∈ e.variables_
  · rw [addVariable_of_present e name varType h]
    simp [h]
  · rw [addVariable_of_absent e name varType h]
    refine ⟨by simp [h], fun _ => ⟨AList.lookup_insert _, fun other hne => ?_⟩⟩
    exact AList.lookup_insert_ne hne

/-- C5, at the registry holding `x : "int"`: adding `y` succeeds, binds `y` and
keeps `x`. -/
theorem addVariable_error_iff_and_frame_witness :
    (((NewEnvironment.AddVariable "x" "int").1.AddVariable "y" "string").2 = none) ∧
    (((NewEnvironment.AddVariable "x" "int").1.AddVariable "y" "string").1.variables_.lookup "y"
        = some "string" ∧
      ∀ other : String, other ≠ "y" →
        ((NewEnvironment.AddVariable "x" "int").1.AddVariable "y" "string").1.variables_.lookup other
          = (NewEnvironment.AddVariable "x" "int").1.variables_.lookup other) :=
  ⟨rfl, (addVariable_error_iff_and_frame (NewEnvironment.AddVariable "x" "int").1 "y" "string").2 rfl⟩

/-- C6: after a successful `AddVariable(x, T1)`, the call `AddVariable(x, T2)`
returns the duplicate-variable error naming `x` and leaves the registry exactly as
it was before the failing call, in which `x` is still bound to `T1`. -/
theorem addVariable_twice_fails_and_keeps_first (e : Environment VariableType) (x : String)
    (T1 T2 : VariableType) (h : (e.AddVariable x T1).2 = none) :
    (e.AddVariable x T1).1.AddVariable x T2 =
        ((e.AddVariable x T1).1, some ("variable `" ++ x ++ "` already exists")) ∧
    ((e.AddVariable x T1).1.AddVariable x T2).1.variables_.lookup x = some T1 := by
  have hx : x ∉ e.variables_ := by
    intro hin
    rw [addVariable_of_present e x T1 hin] at h
    simp at h
  have h1 : (e.AddVariable x T1).1.variables_.lookup x = some T1 := by
    rw [addVariable_of_absent e x T1 hx]
    exact AList.lookup_insert _
  have hin : x ∈ (e.AddVariable x T1).1.variables_ :=
    AList.lookup_isSome.mp (by rw [h1]; rfl)
  have h2 := addVariable_of_present (e.AddVariable x T1).1 x T2 hin
  refine ⟨h2, ?_⟩
  rw [h2]
  exact h1

/-- C6, at the empty registry with `x`, first as `"int"` and then as `"string"`. -/
theorem addVariable_twice_fails_and_keeps_first_witness :
    ((NewEnvironment : Environment String).AddVariable "x" "int").2 = none ∧
    ((NewEnvironment : Environment String).AddVariable "x" "int").1.AddVariable "x" "string" =
        (((NewEnvironment : Environment String).AddVariable "x" "int").1,
          some ("variable `" ++ "x" ++ "` already exists")) ∧
    (((NewEnvironment : Environment String).AddVariable "x" "int").1.AddVariable "x"
        "string").1.variables_.lookup "x" = some "int" :=
  ⟨rfl, addVariable_twice_fails_and_keeps_first NewEnvironment "x" "int" "string" rfl⟩

theorem envForVariables_loop_ok (rest : List (Σ _ : String, VariableType)) :
    ∀ e : Environment VariableType, rest.NodupKeys → (∀ x ∈ rest, x.1 ∉ e.variables_) →
      ∃ e' : Environment VariableType, EnvForVariables.loop e rest = .ok e' ∧
        e'.variables_.entries.Perm (rest ++ e.variables_.entries) := by
  induction rest with
  | nil =>
    intro e _ _
    exact ⟨e, rfl, by simp⟩
  | cons x rest ih =>
    intro e hnd hdisj
    obtain ⟨varName, varType⟩ := x
    rw [List.nodupKeys_cons] at hnd
    have hx : varName ∉ e.variables_ := hdisj ⟨varName, varType⟩ (List.mem_cons_self _ _)
    have hdisj' : ∀ y ∈ rest, y.1 ∉ (e.variables_.insert varName varType) := by
      intro y hy hmem
      rcases (AList.mem_insert _).mp hmem with heq | hin
      · have hk : y.1 ∈ rest.keys := List.mem_map_of_mem Sigma.fst hy
        exact hnd.1 (heq ▸ hk)
      · exact hdisj y (List.mem_cons_of_mem _ hy) hin
    obtain ⟨e', hrun, hperm⟩ := ih { variables_ := e.variables_.insert varName varType } hnd.2 hdisj'
    refine ⟨e', ?_, ?_⟩
    · simp only [EnvForVariables.loop, addVariable_of_absent e varName varType hx]
      exact hrun
    · refine hperm.trans ?_
      simp only [AList.insert_entries_of_neg hx]
      exact List.perm_middle

theorem envForVariables_loop_of_perm (vars : GoMap VariableType)
    (order : List (Σ _ : String, VariableType)) (h : order.Perm vars.entries) :
    ∃ e : Environment VariableType, EnvForVariables.loop NewEnvironment order = .ok e ∧
      e.variables_.entries.Perm vars.entries := by
  have hnd : order.NodupKeys := (List.perm_nodupKeys h).mpr vars.nodupKeys
  obtain ⟨e, hrun, hperm⟩ := envForVariables_loop_ok order NewEnvironment hnd
    (fun x _ => AList.not_mem_empty x.1)
  refine ⟨e, hrun, hperm.trans ?_⟩
  simpa [NewEnvironment] using h

/-- C10: for every mapping, `EnvForVariables` succeeds, in whichever order the
`range` loop visits the entries of the mapping, and returns a registry whose
entries are exactly the entries of the mapping; `MustEnvForVariables` does not
panic and returns the same registry. -/
theorem envForVariables_ok (vars : GoMap VariableType) :
    ∃ e : Environment VariableType,
      EnvForVariables vars = .ok e ∧ MustEnvForVariables vars = .ok e ∧
      e.variables_.entries.Perm vars.entries ∧
      (∀ name : String, e.variables_.lookup name = vars.lookup name) ∧
      ∀ order : List (Σ _ : String, VariableType), order.Perm vars.entries →
        ∃ e' : Environment VariableType, EnvForVariables.loop NewEnvironment order = .ok e' ∧
          ∀ name : String, e'.variables_.lookup name = vars.lookup name := by
  obtain ⟨e, hrun, hperm⟩ := envForVariables_loop_of_perm vars vars.entries (List.Perm.refl _)
  refine ⟨e, hrun, ?_, hperm, fun name => AList.perm_lookup hperm, ?_⟩
  · have h' : EnvForVariables vars = .ok e := hrun
    simp [MustEnvForVariables, h']
  · intro order horder
    obtain ⟨e', hrun', hperm'⟩ := envForVariables_loop_of_perm vars order horder
    exact ⟨e', hrun', fun name => AList.perm_lookup hperm'⟩

/-- C10, at the mapping with `x : "int"` and `y : "string"`, the loop visiting the
entries in the reverse of their stored order. -/
theorem envForVariables_ok_witness :
    ∃ e' : Environment String,
      EnvForVariables.loop NewEnvironment
          (((∅ : GoMap String).insert "x" "int").insert "y" "string").entries.reverse = .ok e' ∧
      ∀ name : String, e'.variables_.lookup name =
        (((∅ : GoMap String).insert "x" "int").insert "y" "string").lookup name :=
  (envForVariables_ok (((∅ : GoMap String).insert "x" "int").insert "y" "string")).elim
    (fun _ h => h.2.2.2.2 _ (List.reverse_perm _))

/-- C11: for every mapping and every name `n` that is a key of it, `AddVariable(n, T)`
on the registry built by `EnvForVariables` fails for every type `T`, with the
message naming `n`, and leaves the registry as it was; so it is for the names `x`
and `y` of the registry built from `x : IntType, y : StringType`. -/
theorem addVariable_after_envForVariables_fails (vars : GoMap VariableType) (n : String)
    (T : VariableType) (hn : n ∈ vars) :
    (∃ e : Environment VariableType, EnvForVariables vars = .ok e ∧
      e.AddVariable n T = (e, some ("variable `" ++ n ++ "` already exists"))) ∧
    ∀ IntType StringType : VariableType,
      ∃ e : Environment VariableType,
        EnvForVariables (((∅ : GoMap VariableType).insert "x" IntType).insert "y" StringType)
          = .ok e ∧
        e.AddVariable "x" T = (e, some "variable `x` already exists") ∧
        e.AddVariable "y" T = (e, some "variable `y` already exists") := by
  have key : ∀ (vs : GoMap VariableType) (m : String), m ∈ vs →
      ∃ e : Environment VariableType, EnvForVariables vs = .ok e ∧
        e.AddVariable m T = (e, some ("variable `" ++ m ++ "` already exists")) := by
    intro vs m hm
    obtain ⟨e, hrun, hperm⟩ := envForVariables_loop_of_perm vs vs.entries (List.Perm.refl _)
    refine ⟨e, hrun, addVariable_of_present e m T ?_⟩
    exact (AList.mem_of_perm hperm).mpr hm
  refine ⟨key vars n hn, fun IntType StringType => ?_⟩
  obtain ⟨e, hrun, hperm⟩ := envForVariables_loop_of_perm
    (((∅ : GoMap VariableType).insert "x" IntType).insert "y" StringType) _ (List.Perm.refl _)
  refine ⟨e, hrun, ?_, ?_⟩
  · have hx : "x" ∈ e.variables_ := (AList.mem_of_perm hperm).mpr
      ((AList.mem_insert _).mpr (Or.inr ((AList.mem_insert _).mpr (Or.inl rfl))))
    simpa using addVariable_of_present e "x" T hx
  · have hy : "y" ∈ e.variables_ := (AList.mem_of_perm hperm).mpr
      ((AList.mem_insert _).mpr (Or.inl rfl))
    simpa using addVariable_of_present e "y" T hy

/-- C11, at the mapping `x : "int", y : "string"`, adding `x` as `"bool"`. -/
theorem addVariable_after_envForVariables_fails_witness :
    ∃ e : Environment String,
      EnvForVariables (((∅ : GoMap String).insert "x" "int").insert "y" "string") = .ok e ∧
      e.AddVariable "x" "bool" = (e, some ("variable `" ++ "x" ++ "` already exists")) :=
  (addVariable_after_envForVariables_fails
    (((∅ : GoMap String).insert "x" "int").insert "y" "string") "x" "bool" (by decide)).1

end

section
variable {VariableType CatalogOption CelType : Type}

theorem foldl_append_flatMap {α β : Type} (f : α → List β) (l : List α) :
    ∀ acc : List β, l.foldl (fun opts a => opts ++ f a) acc = acc ++ l.flatMap f := by
  induction l with
  | nil => intro acc; simp
  | cons a l ih => intro acc; simp [ih]

theorem foldl_append_singleton {α β : Type} (g : α → β) (l : List α) :
    ∀ acc : List β, l.foldl (fun opts a => opts ++ [g a]) acc = acc ++ l.map g := by
  induction l with
  | nil => intro acc; simp
  | cons a l ih => intro acc; simp [ih]

/-- The slice of options is the catalog, then the three policy options, then the
variable declarations. -/
theorem asCelEnvironment_opts_eq (CustomTypes : GoMap (List CatalogOption))
    (CustomMethodsOnTypes : List CatalogOption) (celTypeOf : VariableType → CelType)
    (e : Environment VariableType) :
    Environment.asCelEnvironment.opts CustomTypes CustomMethodsOnTypes celTypeOf e =
      (catalogOptions CustomTypes CustomMethodsOnTypes).map EnvOption.catalog ++
        policyOptions ++ variableOptions celTypeOf e := by
  simp only [Environment.asCelEnvironment.opts, catalogOptions, policyOptions, variableOptions]
  rw [foldl_append_singleton (fun v : (Σ _ : String, VariableType) =>
      (EnvOption.Variable v.1 (celTypeOf v.2) : EnvOption CatalogOption CelType)),
    foldl_append_flatMap (fun c : (Σ _ : String, List CatalogOption) =>
      (c.2.map EnvOption.catalog : List (EnvOption CatalogOption CelType)))]
  simp [List.flatMap, List.map_flatten, List.map_map, Function.comp_def]

/-- C12: for every registry, the options handed to `cel.NewEnv` hold the three
policy options (UTC default time zone, optional types, macro-call tracking) each
once, the same for every registry; every option of the fixed catalog; and one
variable declaration per registry entry, of pairwise distinct names; the length of
the list is that of the catalog plus 3 plus the number of registry entries. -/
theorem asCelEnvironment_opts_contents (CustomTypes : GoMap (List CatalogOption))
    (CustomMethodsOnTypes : List CatalogOption) (celTypeOf : VariableType → CelType)
    (e : Environment VariableType) :
    (∀ (Env : Type) (NewEnv : List (EnvOption CatalogOption CelType) → Except String Env),
      Environment.asCelEnvironment NewEnv CustomTypes CustomMethodsOnTypes celTypeOf e =
        NewEnv (Environment.asCelEnvironment.opts CustomTypes CustomMethodsOnTypes celTypeOf e)) ∧
    (Environment.asCelEnvironment.opts CustomTypes CustomMethodsOnTypes celTypeOf e).filter
        EnvOption.isPolicy =
      [EnvOption.DefaultUTCTimeZone true, EnvOption.OptionalTypes 0,
        EnvOption.EnableMacroCallTracking] ∧
    (∀ e2 : Environment VariableType,
      (Environment.asCelEnvironment.opts CustomTypes CustomMethodsOnTypes celTypeOf e2).filter
          EnvOption.isPolicy =
        (Environment.asCelEnvironment.opts CustomTypes CustomMethodsOnTypes celTypeOf e).filter
          EnvOption.isPolicy) ∧
    (Environment.asCelEnvironment.opts CustomTypes CustomMethodsOnTypes celTypeOf e).filterMap
        EnvOption.asCatalog = catalogOptions CustomTypes CustomMethodsOnTypes ∧
    (Environment.asCelEnvironment.opts CustomTypes CustomMethodsOnTypes celTypeOf e).filterMap
        EnvOption.asVariable =
      e.variables_.entries.map (fun variable_ => (variable_.1, celTypeOf variable_.2)) ∧
    (((Environment.asCelEnvironment.opts CustomTypes CustomMethodsOnTypes celTypeOf e).filterMap
        EnvOption.asVariable).map Prod.fst).Nodup ∧
    (Environment.asCelEnvironment.opts CustomTypes CustomMethodsOnTypes celTypeOf e).length =
      (catalogOptions CustomTypes CustomMethodsOnTypes).length + 3 + e.variables_.entries.length := by
  have hpol : ∀ e1 : Environment VariableType,
      (Environment.asCelEnvironment.opts CustomTypes CustomMethodsOnTypes celTypeOf e1).filter
          EnvOption.isPolicy =
        [EnvOption.DefaultUTCTimeZone true, EnvOption.OptionalTypes 0,
          EnvOption.EnableMacroCallTracking] := by
    intro e1
    rw [asCelEnvironment_opts_eq]
    simp only [List.filter_append, policyOptions, variableOptions]
    have h1 : ∀ l : List CatalogOption,
        (l.map (EnvOption.catalog : CatalogOption → EnvOption CatalogOption CelType)).filter
          EnvOption.isPolicy = [] := by
      intro l
      induction l with
      | nil => rfl
      | cons a l ih => simp [List.filter, EnvOption.isPolicy, ih]
    have h2 : ∀ l : List (Σ _ : String, VariableType),
        (l.map (fun v => (EnvOption.Variable v.1 (celTypeOf v.2) :
          EnvOption CatalogOption CelType))).filter EnvOption.isPolicy = [] := by
      intro l
      induction l with
      | nil => rfl
      | cons a l ih => simp [List.filter, EnvOption.isPolicy, ih]
    rw [h1, h2]
    rfl
  have hvar : (Environment.asCelEnvironment.opts CustomTypes CustomMethodsOnTypes celTypeOf
      e).filterMap EnvOption.asVariable =
        e.variables_.entries.map (fun variable_ => (variable_.1, celTypeOf variable_.2)) := by
    rw [asCelEnvironment_opts_eq]
    simp only [List.filterMap_append, policyOptions, variableOptions]
    have h1 : ∀ l : List CatalogOption,
        (l.map (EnvOption.catalog : CatalogOption → EnvOption CatalogOption CelType)).filterMap
          EnvOption.asVariable = [] := by
      intro l
      induction l with
      | nil => rfl
      | cons a l ih => simp [EnvOption.asVariable, ih]
    have h2 : ∀ l : List (Σ _ : String, VariableType),
        (l.map (fun v => (EnvOption.Variable v.1 (celTypeOf v.2) :
          EnvOption CatalogOption CelType))).filterMap EnvOption.asVariable =
            l.map (fun v => (v.1, celTypeOf v.2)) := by
      intro l
      induction l with
      | nil => rfl
      | cons a l ih => simp [EnvOption.asVariable, ih]
    rw [h1, h2]
    simp [EnvOption.asVariable]
  refine ⟨fun _ _ => rfl, hpol e, fun e2 => (hpol e2).trans (hpol e).symm, ?_, hvar, ?_, ?_⟩
  · rw [asCelEnvironment_opts_eq]
    simp only [List.filterMap_append, policyOptions, variableOptions]
    have h1 : ∀ l : List CatalogOption,
        (l.map (EnvOption.catalog : CatalogOption → EnvOption CatalogOption CelType)).filterMap
          EnvOption.asCatalog = l := by
      intro l
      induction l with
      | nil => rfl
      | cons a l ih => simp [EnvOption.asCatalog, ih]
    have h2 : ∀ l : List (Σ _ : String, VariableType),
        (l.map (fun v => (EnvOption.Variable v.1 (celTypeOf v.2) :
          EnvOption CatalogOption CelType))).filterMap EnvOption.asCatalog = [] := by
      intro l
      induction l with
      | nil => rfl
      | cons a l ih => simp [EnvOption.asCatalog, ih]
    rw [h1, h2]
    simp [EnvOption.asCatalog]
  · rw [hvar, List.map_map]
    exact e.variables_.keys_nodup
  · rw [asCelEnvironment_opts_eq]
    simp only [policyOptions, variableOptions, List.length_append, List.length_map,
      List.length_cons, List.length_nil]

/-- C15, as stated, fails: on the registry holding `x`, the option list is not the
catalog, then the variable declarations, then the three policy options. -/
theorem asCelEnvironment_opts_order_counterexample :
    Environment.asCelEnvironment.opts exampleCustomTypes exampleCustomMethods id exampleRegistry ≠
      (catalogOptions exampleCustomTypes exampleCustomMethods).map EnvOption.catalog ++
        variableOptions id exampleRegistry ++ policyOptions := by
  decide

/-- C15, amended: `asCelEnvironment` composes the option list in this order: first
the options of the fixed catalog (those of the custom types, then the custom
methods), then the three policy options (UTC time zone, optional types, macro-call
tracking), then one variable declaration per registry entry, last. -/
theorem asCelEnvironment_opts_order (CustomTypes : GoMap (List CatalogOption))
    (CustomMethodsOnTypes : List CatalogOption) (celTypeOf : VariableType → CelType)
    (e : Environment VariableType) :
    Environment.asCelEnvironment.opts CustomTypes CustomMethodsOnTypes celTypeOf e =
      (CustomTypes.entries.flatMap (fun customTypeOpts => customTypeOpts.2)).map
          EnvOption.catalog ++
        CustomMethodsOnTypes.map EnvOption.catalog ++
        [EnvOption.DefaultUTCTimeZone true, EnvOption.OptionalTypes 0,
          EnvOption.EnableMacroCallTracking] ++
        e.variables_.entries.map
          (fun variable_ => EnvOption.Variable variable_.1 (celTypeOf variable_.2)) := by
  rw [asCelEnvironment_opts_eq]
  simp [catalogOptions, policyOptions, variableOptions]

end

end Caveats

/-! ## Theorems: the membership resolver -/

namespace Membership

theorem RelationTupleTreeNode.induction {P : RelationTupleTreeNode → Prop}
    (hI : ∀ e op cs, (∀ c ∈ cs, P c) → P (.intermediate e op cs))
    (hL : ∀ e us, P (.leaf e us)) (hU : ∀ e, P (.unknown e)) :
    ∀ t, P t := fun t =>
  @RelationTupleTreeNode.rec P (fun cs => ∀ c ∈ cs, P c)
    (fun e op cs ih => hI e op cs ih) hL hU
    (fun c hc => absurd hc (List.not_mem_nil c))
    (fun c cs hc hcs x hx => by
      rcases List.mem_cons.mp hx with h | h
      · exact h ▸ hc
      · exact hcs x h) t

theorem nodes_children_eq (cs : List RelationTupleTreeNode) :
    nodes.children cs = cs.flatMap nodes := by
  induction cs with
  | nil => simp [nodes.children]
  | cons c cs ih => simp [nodes.children, ih]

theorem leafOccurrences_children_eq (root : ObjectAndRelation) (cs : List RelationTupleTreeNode) :
    leafOccurrences.children root cs = cs.flatMap (leafOccurrences root) := by
  induction cs with
  | nil => simp [leafOccurrences.children]
  | cons c cs ih => simp [leafOccurrences.children, ih]

theorem valid_intermediate (e : Option ObjectAndRelation) (op : Operation)
    (cs : List RelationTupleTreeNode) :
    valid (.intermediate e op cs) = true ↔ knownOperation op = true ∧ ∀ c ∈ cs, valid c = true := by
  simp only [valid, nodes, nodes_children_eq, List.all_cons, Bool.and_eq_true, List.all_eq_true,
    List.mem_flatMap, malformedNode, Bool.not_eq_true']
  constructor
  · rintro ⟨h1, h2⟩
    refine ⟨by simpa using h1, fun c hc n hn => h2 n ⟨c, hc, hn⟩⟩
  · rintro ⟨h1, h2⟩
    refine ⟨by simpa using h1, ?_⟩
    rintro n ⟨c, hc, hn⟩
    exact h2 c hc n hn

theorem valid_leaf (e : Option ObjectAndRelation) (us : List ObjectAndRelation) :
    valid (.leaf e us) = true := by
  simp [valid, nodes, malformedNode]

theorem valid_unknown (e : Option ObjectAndRelation) : valid (.unknown e) = false := by
  simp [valid, nodes, malformedNode]

section
variable (StringONR : ObjectAndRelation → String)

/-! ### The Relationship-Path Set -/

theorem ONRSet.has_iff (s : ONRSet) (onr : ObjectAndRelation) :
    s.Has StringONR onr = true ↔ StringONR onr ∈ s.onrs.map StringONR := by
  simp only [ONRSet.Has, List.any_eq_true, beq_iff_eq, List.mem_map]

theorem ONRSet.mem_add (s : ONRSet) (onr : ObjectAndRelation) (x : String) :
    x ∈ (s.Add StringONR onr).onrs.map StringONR ↔
      x ∈ s.onrs.map StringONR ∨ x = StringONR onr := by
  unfold ONRSet.Add
  by_cases h : s.Has StringONR onr = true
  · rw [if_pos h]
    constructor
    · exact Or.inl
    · rintro (hx | hx)
      · exact hx
      · exact hx ▸ (ONRSet.has_iff StringONR s onr).mp h
  · rw [if_neg h]
    simp only [List.map_append, List.map_cons, List.map_nil, List.mem_append, List.mem_singleton]

theorem ONRSet.nodup_add (s : ONRSet) (onr : ObjectAndRelation)
    (h : (s.onrs.map StringONR).Nodup) : ((s.Add StringONR onr).onrs.map StringONR).Nodup := by
  unfold ONRSet.Add
  by_cases hh : s.Has StringONR onr = true
  · rw [if_pos hh]
    exact h
  · rw [if_neg hh]
    have hn : StringONR onr ∉ s.onrs.map StringONR := fun hm =>
      hh ((ONRSet.has_iff StringONR s onr).mpr hm)
    simp only [List.map_append, List.map_cons, List.map_nil]
    refine List.Nodup.append h (List.nodup_singleton _) ?_
    intro a ha hb
    rw [List.mem_singleton] at hb
    exact hn (hb ▸ ha)

/-! ### The walk as a fold over the leaf occurrences -/

theorem populate_user_eq (relationship : ObjectAndRelation) (m : GoMap FoundSubject)
    (user : ObjectAndRelation) :
    populateFoundSubjects.user StringONR relationship m user =
      .ok (recordOccurrence StringONR m (user, relationship)) := by
  unfold populateFoundSubjects.user recordOccurrence
  cases h : m.lookup (StringONR user) with
  | some found => simp [h]
  | none => simp [h, AList.lookup_insert, AList.insert_insert]

theorem populate_users_eq (relationship : ObjectAndRelation) (users : List ObjectAndRelation) :
    ∀ m : GoMap FoundSubject,
      populateFoundSubjects.users StringONR relationship m users =
        .ok ((users.map (fun user => (user, relationship))).foldl
          (recordOccurrence StringONR) m) := by
  induction users with
  | nil => intro m; rfl
  | cons user rest ih =>
    intro m
    simp only [populateFoundSubjects.users, populate_user_eq, List.map_cons, List.foldl_cons]
    exact ih _

theorem knownOperation_iff (op : Operation) :
    knownOperation op = true ↔ (op = SetOperationUserset_UNION ∨
      op = SetOperationUserset_INTERSECTION ∨ op = SetOperationUserset_EXCLUSION) := by
  simp [knownOperation]

theorem populate_children_of_valid (root : ObjectAndRelation) (cs : List RelationTupleTreeNode)
    (ih : ∀ c ∈ cs, ∀ m : GoMap FoundSubject, valid c = true →
      populateFoundSubjects StringONR m root c =
        .ok ((leafOccurrences root c).foldl (recordOccurrence StringONR) m))
    (hv : ∀ c ∈ cs, valid c = true) :
    ∀ m : GoMap FoundSubject,
      populateFoundSubjects.children StringONR m root cs =
        .ok ((leafOccurrences.children root cs).foldl (recordOccurrence StringONR) m) := by
  induction cs with
  | nil => intro m; simp [populateFoundSubjects.children, leafOccurrences.children]
  | cons c rest ihl =>
    intro m
    have hc := ih c (List.mem_cons_self _ _) m (hv c (List.mem_cons_self _ _))
    simp only [populateFoundSubjects.children, hc, leafOccurrences.children, List.foldl_append]
    exact ihl (fun c' hc' => ih c' (List.mem_cons_of_mem _ hc'))
      (fun c' hc' => hv c' (List.mem_cons_of_mem _ hc')) _

/-- On a valid tree the walk returns, and the working map it leaves is the fold of
`recordOccurrence` over the leaf occurrences of the tree. -/
theorem populate_of_valid (root : ObjectAndRelation) :
    ∀ (t : RelationTupleTreeNode) (m : GoMap FoundSubject), valid t = true →
      populateFoundSubjects StringONR m root t =
        .ok ((leafOccurrences root t).foldl (recordOccurrence StringONR) m) := by
  intro t
  induction t using RelationTupleTreeNode.induction with
  | hI e op cs ih =>
    intro m hv
    obtain ⟨hop, hcs⟩ := (valid_intermediate e op cs).mp hv
    rw [populateFoundSubjects, if_pos ((knownOperation_iff op).mp hop), leafOccurrences]
    exact populate_children_of_valid StringONR root cs ih hcs m
  | hL e us =>
    intro m _
    cases e with
    | none => simp only [populateFoundSubjects, leafOccurrences, populate_users_eq]
    | some e => simp only [populateFoundSubjects, leafOccurrences, populate_users_eq]
  | hU e =>
    intro m hv
    rw [valid_unknown] at hv
    exact absurd hv (by decide)

theorem populate_children_of_invalid (root : ObjectAndRelation) (cs : List RelationTupleTreeNode)
    (ih : ∀ c ∈ cs, ∀ m : GoMap FoundSubject, valid c = false →
      ∃ p, populateFoundSubjects StringONR m root c = .error p)
    (hv : ∃ c ∈ cs, valid c = false) :
    ∀ m : GoMap FoundSubject, ∃ p, populateFoundSubjects.children StringONR m root cs = .error p := by
  induction cs with
  | nil =>
    obtain ⟨c, hc, _⟩ := hv
    exact absurd hc (List.not_mem_nil c)
  | cons c rest ihl =>
    intro m
    rw [populateFoundSubjects.children]
    cases hrun : populateFoundSubjects StringONR m root c with
    | error p => exact ⟨p, rfl⟩
    | ok m1 =>
      have hcv : valid c = true := by
        cases hvc : valid c with
        | true => rfl
        | false =>
          obtain ⟨p, hp⟩ := ih c (List.mem_cons_self _ _) m hvc
          rw [hp] at hrun
          cases hrun
      obtain ⟨c', hc', hbad⟩ := hv
      have hrest : c' ∈ rest := by
        rcases List.mem_cons.mp hc' with h | h
        · rw [h, hcv] at hbad
          cases hbad
        · exact h
      exact ihl (fun x hx => ih x (List.mem_cons_of_mem _ hx)) ⟨c', hrest, hbad⟩ m1

/-- On a tree that is not valid the walk panics, whatever the working map. -/
theorem populate_of_invalid (root : ObjectAndRelation) :
    ∀ (t : RelationTupleTreeNode) (m : GoMap FoundSubject), valid t = false →
      ∃ p, populateFoundSubjects StringONR m root t = .error p := by
  intro t
  induction t using RelationTupleTreeNode.induction with
  | hI e op cs ih =>
    intro m hv
    rw [populateFoundSubjects]
    by_cases hop : knownOperation op = true
    · rw [if_pos ((knownOperation_iff op).mp hop)]
      have hbad : ∃ c ∈ cs, valid c = false := by
        by_contra hcon
        have hall : ∀ c ∈ cs, valid c = true := by
          intro c hc
          cases hvc : valid c with
          | true => rfl
          | false => exact absurd ⟨c, hc, hvc⟩ hcon
        rw [(valid_intermediate e op cs).mpr ⟨hop, hall⟩] at hv
        cases hv
      exact populate_children_of_invalid StringONR root cs ih hbad m
    · rw [if_neg (fun h => hop ((knownOperation_iff op).mpr h))]
      exact ⟨_, rfl⟩
  | hL e us =>
    intro m hv
    rw [valid_leaf] at hv
    cases hv
  | hU e =>
    intro m _
    exact ⟨_, rfl⟩

/-! ### The fold of `recordOccurrence` -/

theorem mem_recordOccurrence (m : GoMap FoundSubject)
    (p : ObjectAndRelation × ObjectAndRelation) (k : String) :
    k ∈ recordOccurrence StringONR m p ↔ k ∈ m ∨ k = StringONR p.1 := by
  unfold recordOccurrence
  cases h : m.lookup (StringONR p.1) with
  | some found => simp only [AList.mem_insert]; exact Or.comm
  | none => simp only [AList.mem_insert]; exact Or.comm

theorem lookup_recordOccurrence_ne (m : GoMap FoundSubject)
    (p : ObjectAndRelation × ObjectAndRelation) (k : String) (hk : k ≠ StringONR p.1) :
    (recordOccurrence StringONR m p).lookup k = m.lookup k := by
  unfold recordOccurrence
  cases h : m.lookup (StringONR p.1) with
  | some found => exact AList.lookup_insert_ne hk
  | none => exact AList.lookup_insert_ne hk

theorem lookup_recordOccurrence_self (m : GoMap FoundSubject)
    (p : ObjectAndRelation × ObjectAndRelation) :
    (recordOccurrence StringONR m p).lookup (StringONR p.1) =
      some (match m.lookup (StringONR p.1) with
        | some found =>
          { found with relationships := found.relationships.Add StringONR p.2 }
        | none => { subject := p.1, relationships := NewONRSet.Add StringONR p.2 }) := by
  unfold recordOccurrence
  cases h : m.lookup (StringONR p.1) with
  | some found => exact AList.lookup_insert _
  | none => exact AList.lookup_insert _

theorem mem_foldl_recordOccurrence (occs : List (ObjectAndRelation × ObjectAndRelation)) :
    ∀ (m : GoMap FoundSubject) (k : String),
      k ∈ occs.foldl (recordOccurrence StringONR) m ↔
        k ∈ m ∨ ∃ p ∈ occs, k = StringONR p.1 := by
  induction occs with
  | nil => intro m k; simp
  | cons p rest ih =>
    intro m k
    rw [List.foldl_cons, ih, mem_recordOccurrence]
    simp only [List.mem_cons, exists_eq_or_imp, or_assoc]

/-- The string forms in the Relationship-Path Set of the entry stored under `k`,
after one leaf occurrence. -/
theorem rel_recordOccurrence_iff (m : GoMap FoundSubject)
    (p : ObjectAndRelation × ObjectAndRelation) (k x : String) :
    (∃ f, (recordOccurrence StringONR m p).lookup k = some f ∧
        x ∈ f.relationships.onrs.map StringONR) ↔
      (∃ f, m.lookup k = some f ∧ x ∈ f.relationships.onrs.map StringONR) ∨
        (k = StringONR p.1 ∧ x = StringONR p.2) := by
  by_cases hk : k = StringONR p.1
  · subst hk
    rw [lookup_recordOccurrence_self]
    cases h : m.lookup (StringONR p.1) with
    | some found =>
      simp only [Option.some.injEq, exists_eq_left', ONRSet.mem_add, true_and]
    | none =>
      simp only [Option.some.injEq, exists_eq_left', ONRSet.mem_add, true_and, NewONRSet,
        List.map_nil, List.not_mem_nil, false_or, false_and, exists_false, reduceCtorEq]
  · rw [lookup_recordOccurrence_ne StringONR m p k hk]
    simp only [hk, false_and, or_false]

theorem rel_foldl_recordOccurrence_iff (occs : List (ObjectAndRelation × ObjectAndRelation)) :
    ∀ (m : GoMap FoundSubject) (k x : String),
      (∃ f, (occs.foldl (recordOccurrence StringONR) m).lookup k = some f ∧
          x ∈ f.relationships.onrs.map StringONR) ↔
        (∃ f, m.lookup k = some f ∧ x ∈ f.relationships.onrs.map StringONR) ∨
          ∃ p ∈ occs, k = StringONR p.1 ∧ x = StringONR p.2 := by
  induction occs with
  | nil => intro m k x; simp
  | cons p rest ih =>
    intro m k x
    rw [List.foldl_cons, ih, rel_recordOccurrence_iff]
    simp only [List.mem_cons, exists_eq_or_imp, or_assoc]

/-- What holds of every entry of a working map built from the empty map: the entry
is stored under the string form of its subject, and its Relationship-Path Set is
not empty and holds no string form twice. -/
theorem entry_recordOccurrence (m : GoMap FoundSubject)
    (p : ObjectAndRelation × ObjectAndRelation)
    (hm : ∀ k f, m.lookup k = some f → StringONR f.subject = k ∧
      (f.relationships.onrs.map StringONR).Nodup ∧ f.relationships.onrs ≠ []) :
    ∀ k f, (recordOccurrence StringONR m p).lookup k = some f → StringONR f.subject = k ∧
      (f.relationships.onrs.map StringONR).Nodup ∧ f.relationships.onrs ≠ [] := by
  intro k f hf
  by_cases hk : k = StringONR p.1
  · subst hk
    rw [lookup_recordOccurrence_self] at hf
    have hne : ∀ s : ONRSet, (s.Add StringONR p.2).onrs ≠ [] := by
      intro s hnil
      have hmem := (ONRSet.mem_add StringONR s p.2 (StringONR p.2)).mpr (Or.inr rfl)
      rw [hnil] at hmem
      simp at hmem
    cases h : m.lookup (StringONR p.1) with
    | some found =>
      rw [h] at hf
      simp only [Option.some.injEq] at hf
      subst hf
      obtain ⟨h1, h2, _⟩ := hm _ _ h
      exact ⟨h1, ONRSet.nodup_add StringONR _ _ h2, hne _⟩
    | none =>
      rw [h] at hf
      simp only [Option.some.injEq] at hf
      subst hf
      exact ⟨rfl, ONRSet.nodup_add StringONR _ _ (by simp [NewONRSet]), hne _⟩
  · rw [lookup_recordOccurrence_ne StringONR m p k hk] at hf
    exact hm k f hf

theorem entry_foldl_recordOccurrence (occs : List (ObjectAndRelation × ObjectAndRelation)) :
    ∀ (m : GoMap FoundSubject),
      (∀ k f, m.lookup k = some f → StringONR f.subject = k ∧
        (f.relationships.onrs.map StringONR).Nodup ∧ f.relationships.onrs ≠ []) →
      ∀ k f, (occs.foldl (recordOccurrence StringONR) m).lookup k = some f →
        StringONR f.subject = k ∧
        (f.relationships.onrs.map StringONR).Nodup ∧ f.relationships.onrs ≠ [] := by
  induction occs with
  | nil => intro m hm; exact hm
  | cons p rest ih =>
    intro m hm
    rw [List.foldl_cons]
    exact ih _ (entry_recordOccurrence StringONR m p hm)

theorem entry_foldl_empty (occs : List (ObjectAndRelation × ObjectAndRelation)) (k : String)
    (f : FoundSubject) (h : (occs.foldl (recordOccurrence StringONR) ∅).lookup k = some f) :
    StringONR f.subject = k ∧ (f.relationships.onrs.map StringONR).Nodup ∧
      f.relationships.onrs ≠ [] ∧
      ∀ x, x ∈ f.relationships.onrs.map StringONR ↔
        ∃ p ∈ occs, k = StringONR p.1 ∧ x = StringONR p.2 := by
  obtain ⟨h1, h2, h3⟩ := entry_foldl_recordOccurrence StringONR occs ∅
    (fun k f hk => by simp at hk) k f h
  refine ⟨h1, h2, h3, fun x => ?_⟩
  have hiff := rel_foldl_recordOccurrence_iff StringONR occs ∅ k x
  simp only [AList.lookup_empty, false_and, exists_false, false_or, reduceCtorEq] at hiff
  rw [← hiff]
  constructor
  · intro hx
    exact ⟨f, h, hx⟩
  · rintro ⟨f', hf', hx⟩
    rw [h] at hf'
    cases hf'
    exact hx

theorem listFound_eq_map (fs : FoundSubjects) :
    fs.ListFound = fs.subjects.entries.map (fun sub => sub.2) := by
  have key : ∀ (l : List (Σ _ : String, FoundSubject)) (acc : List FoundSubject),
      l.foldl (fun found sub => found ++ [sub.2]) acc = acc ++ l.map (fun sub => sub.2) := by
    intro l
    induction l with
    | nil => intro acc; simp
    | cons a l ih => intro acc; simp [ih]
  simpa [FoundSubjects.ListFound] using key fs.subjects.entries []

/-! ### `AddExpansion` -/

theorem addExpansion_of_present (ms : MembershipSet) (onr : ObjectAndRelation)
    (t : RelationTupleTreeNode) (existing : FoundSubjects)
    (h : ms.objectsAndRelations.lookup (StringONR onr) = some existing) :
    ms.AddExpansion StringONR onr t = (ms, .ok (existing, false)) := by
  simp [MembershipSet.AddExpansion, h]

theorem addExpansion_of_absent_valid (ms : MembershipSet) (onr : ObjectAndRelation)
    (t : RelationTupleTreeNode) (h : ms.objectsAndRelations.lookup (StringONR onr) = none)
    (hv : valid t = true) :
    ms.AddExpansion StringONR onr t =
      ({ objectsAndRelations := ms.objectsAndRelations.insert (StringONR onr)
          { subjects := (leafOccurrences onr t).foldl (recordOccurrence StringONR) ∅ } },
        .ok ({ subjects := (leafOccurrences onr t).foldl (recordOccurrence StringONR) ∅ }, true)) := by
  simp [MembershipSet.AddExpansion, h, populate_of_valid StringONR onr t ∅ hv]

theorem addExpansion_of_absent_invalid (ms : MembershipSet) (onr : ObjectAndRelation)
    (t : RelationTupleTreeNode) (h : ms.objectsAndRelations.lookup (StringONR onr) = none)
    (hv : valid t = false) :
    ∃ p, ms.AddExpansion StringONR onr t = (ms, .error p) := by
  obtain ⟨p, hp⟩ := populate_of_invalid StringONR onr t ∅ hv
  exact ⟨p, by simp [MembershipSet.AddExpansion, h, hp]⟩

/-- An entry of the membership set is still there, unchanged, after any call. -/
theorem lookup_addExpansion_of_lookup (ms : MembershipSet) (onr : ObjectAndRelation)
    (t : RelationTupleTreeNode) (k : String) (v : FoundSubjects)
    (h : ms.objectsAndRelations.lookup k = some v) :
    (ms.AddExpansion StringONR onr t).1.objectsAndRelations.lookup k = some v := by
  cases hl : ms.objectsAndRelations.lookup (StringONR onr) with
  | some existing => rw [addExpansion_of_present StringONR ms onr t existing hl]; exact h
  | none =>
    cases hv : valid t with
    | false =>
      obtain ⟨p, hp⟩ := addExpansion_of_absent_invalid StringONR ms onr t hl hv
      rw [hp]; exact h
    | true =>
      rw [addExpansion_of_absent_valid StringONR ms onr t hl hv]
      have hne : k ≠ StringONR onr := by
        intro heq
        rw [heq, hl] at h
        cases h
      simp only [AList.lookup_insert_ne hne]
      exact h

theorem lookup_afterCalls_of_lookup (calls : List (ObjectAndRelation × RelationTupleTreeNode)) :
    ∀ (ms : MembershipSet) (k : String) (v : FoundSubjects),
      ms.objectsAndRelations.lookup k = some v →
      (ms.afterCalls StringONR calls).objectsAndRelations.lookup k = some v := by
  induction calls with
  | nil => intro ms k v h; exact h
  | cons call rest ih =>
    intro ms k v h
    simp only [MembershipSet.afterCalls, List.foldl_cons]
    exact ih _ k v (lookup_addExpansion_of_lookup StringONR ms call.1 call.2 k v h)

theorem valid_iff_no_malformed (t : RelationTupleTreeNode) :
    valid t = true ↔ ∀ n ∈ nodes t, malformedNode n = false := by
  simp [valid]

/-- C1: when the string form of `r` is not a key of the membership set and `t` is
valid, `AddExpansion(r, t)` returns `added = true`; every later `AddExpansion(r', t2)`
with `r'` of the same string form, after any further calls and for any tree `t2`,
valid or not, returns normally with the Found-Subjects of the first call and
`added = false`, and leaves the membership set unchanged. -/
theorem addExpansion_first_then_existing (ms : MembershipSet) (r : ObjectAndRelation)
    (t : RelationTupleTreeNode) (hv : valid t = true)
    (hr : StringONR r ∉ ms.objectsAndRelations) :
    ∃ (fs : FoundSubjects) (ms1 : MembershipSet),
      ms.AddExpansion StringONR r t = (ms1, .ok (fs, true)) ∧
      ∀ (calls : List (ObjectAndRelation × RelationTupleTreeNode)) (r' : ObjectAndRelation)
        (t2 : RelationTupleTreeNode), StringONR r' = StringONR r →
        (ms1.afterCalls StringONR calls).AddExpansion StringONR r' t2 =
          (ms1.afterCalls StringONR calls, .ok (fs, false)) := by
  have hl : ms.objectsAndRelations.lookup (StringONR r) = none := AList.lookup_eq_none.mpr hr
  refine ⟨_, _, addExpansion_of_absent_valid StringONR ms r t hl hv, ?_⟩
  intro calls r' t2 hsame
  apply addExpansion_of_present
  rw [hsame]
  apply lookup_afterCalls_of_lookup
  exact AList.lookup_insert _

/-- C4: when the string form of the root is not a key of the membership set,
`AddExpansion` panics iff the tree has a malformed node (an intermediate node with
an operation that is not known, or a node that is neither intermediate nor leaf);
on a tree without such a node it returns normally, with `added = true`. -/
theorem addExpansion_panics_iff_malformed (ms : MembershipSet) (root : ObjectAndRelation)
    (t : RelationTupleTreeNode) (hr : StringONR root ∉ ms.objectsAndRelations) :
    ((∃ p, (ms.AddExpansion StringONR root t).2 = .error p) ↔
      ∃ n ∈ nodes t, malformedNode n = true) ∧
    ((∀ n ∈ nodes t, malformedNode n = false) →
      ∃ fs, (ms.AddExpansion StringONR root t).2 = .ok (fs, true)) := by
  have hl : ms.objectsAndRelations.lookup (StringONR root) = none := AList.lookup_eq_none.mpr hr
  cases hv : valid t with
  | true =>
    have hno := (valid_iff_no_malformed t).mp hv
    rw [addExpansion_of_absent_valid StringONR ms root t hl hv]
    refine ⟨⟨?_, ?_⟩, fun _ => ⟨_, rfl⟩⟩
    · rintro ⟨p, hp⟩
      cases hp
    · rintro ⟨n, hn, hbad⟩
      rw [hno n hn] at hbad
      cases hbad
  | false =>
    obtain ⟨p, hp⟩ := addExpansion_of_absent_invalid StringONR ms root t hl hv
    have hex : ∃ n ∈ nodes t, malformedNode n = true := by
      by_contra hcon
      have hall : ∀ n ∈ nodes t, malformedNode n = false := by
        intro n hn
        cases hm : malformedNode n with
        | false => rfl
        | true => exact absurd ⟨n, hn, hm⟩ hcon
      rw [(valid_iff_no_malformed t).mpr hall] at hv
      cases hv
    rw [hp]
    refine ⟨⟨fun _ => hex, fun _ => ⟨p, rfl⟩⟩, ?_⟩
    intro hall
    obtain ⟨n, hn, hbad⟩ := hex
    rw [hall n hn] at hbad
    cases hbad

/-- C9: a new membership set has an empty `SubjectsByONR()` mapping, and a call
`AddExpansion(root, tree)` returning `added = true` changes the mapping only by
adding one entry: the string form of `root` was not a key, afterwards it is mapped
to the returned Found-Subjects, and every other key is mapped as before. -/
theorem addExpansion_added_grows_by_one (ms ms1 : MembershipSet) (root : ObjectAndRelation)
    (t : RelationTupleTreeNode) (fs : FoundSubjects)
    (h : ms.AddExpansion StringONR root t = (ms1, .ok (fs, true))) :
    NewMembershipSet.SubjectsByONR = ∅ ∧
    StringONR root ∉ ms.SubjectsByONR ∧
    ms1.SubjectsByONR.lookup (StringONR root) = some fs ∧
    (∀ k : String, k ≠ StringONR root → ms1.SubjectsByONR.lookup k = ms.SubjectsByONR.lookup k) ∧
    (∀ (k : String) (v : FoundSubjects), ms.SubjectsByONR.lookup k = some v →
      ms1.SubjectsByONR.lookup k = some v) ∧
    ms1.SubjectsByONR.entries = ⟨StringONR root, fs⟩ :: ms.SubjectsByONR.entries := by
  have hmono : ∀ (k : String) (v : FoundSubjects), ms.SubjectsByONR.lookup k = some v →
      ms1.SubjectsByONR.lookup k = some v := by
    intro k v hk
    have := lookup_addExpansion_of_lookup StringONR ms root t k v hk
    rw [h] at this
    exact this
  cases hl : ms.objectsAndRelations.lookup (StringONR root) with
  | some existing =>
    rw [addExpansion_of_present StringONR ms root t existing hl] at h
    simp at h
  | none =>
    have hr : StringONR root ∉ ms.objectsAndRelations := AList.lookup_eq_none.mp hl
    cases hv : valid t with
    | false =>
      obtain ⟨p, hp⟩ := addExpansion_of_absent_invalid StringONR ms root t hl hv
      rw [hp] at h
      simp at h
    | true =>
      rw [addExpansion_of_absent_valid StringONR ms root t hl hv] at h
      simp only [Prod.mk.injEq, Except.ok.injEq, and_true] at h
      obtain ⟨h1, h2⟩ := h
      subst h1
      subst h2
      refine ⟨rfl, hr, AList.lookup_insert _, fun k hk => AList.lookup_insert_ne hk, hmono, ?_⟩
      exact AList.insert_entries_of_neg hr

theorem sameUpToOperation_children_spec (root : ObjectAndRelation)
    (c1 : List RelationTupleTreeNode)
    (ih : ∀ c ∈ c1, ∀ t2, sameUpToOperation c t2 = true →
      valid c = true ∧ valid t2 = true ∧ leafOccurrences root c = leafOccurrences root t2) :
    ∀ c2, sameUpToOperation.children c1 c2 = true →
      (∀ c ∈ c1, valid c = true) ∧ (∀ c ∈ c2, valid c = true) ∧
        leafOccurrences.children root c1 = leafOccurrences.children root c2 := by
  induction c1 with
  | nil =>
    intro c2 h
    cases c2 with
    | nil => simp
    | cons b bs => simp [sameUpToOperation.children] at h
  | cons a as ihl =>
    intro c2 h
    cases c2 with
    | nil => simp [sameUpToOperation.children] at h
    | cons b bs =>
      simp only [sameUpToOperation.children, Bool.and_eq_true] at h
      obtain ⟨ha1, ha2, ha3⟩ := ih a (List.mem_cons_self _ _) b h.1
      obtain ⟨hr1, hr2, hr3⟩ := ihl (fun c hc => ih c (List.mem_cons_of_mem _ hc)) bs h.2
      refine ⟨?_, ?_, ?_⟩
      · intro c hc
        rcases List.mem_cons.mp hc with hh | hh
        · exact hh ▸ ha1
        · exact hr1 c hh
      · intro c hc
        rcases List.mem_cons.mp hc with hh | hh
        · exact hh ▸ ha2
        · exact hr2 c hh
      · simp only [leafOccurrences.children, ha3, hr3]

/-- Two trees that differ at most in the known operations declared are both valid
and have the same leaf occurrences. -/
theorem sameUpToOperation_spec (root : ObjectAndRelation) :
    ∀ t1 t2 : RelationTupleTreeNode, sameUpToOperation t1 t2 = true →
      valid t1 = true ∧ valid t2 = true ∧ leafOccurrences root t1 = leafOccurrences root t2 := by
  intro t1
  induction t1 using RelationTupleTreeNode.induction with
  | hI e op cs ih =>
    intro t2 h
    cases t2 with
    | intermediate e2 op2 cs2 =>
      simp only [sameUpToOperation, Bool.and_eq_true, decide_eq_true_eq] at h
      obtain ⟨⟨⟨_, ho1⟩, ho2⟩, hc⟩ := h
      obtain ⟨h1, h2, h3⟩ := sameUpToOperation_children_spec root cs ih cs2 hc
      refine ⟨(valid_intermediate e op cs).mpr ⟨ho1, h1⟩,
        (valid_intermediate e2 op2 cs2).mpr ⟨ho2, h2⟩, ?_⟩
      simp only [leafOccurrences, h3]
    | leaf e2 us2 => simp [sameUpToOperation] at h
    | unknown e2 => simp [sameUpToOperation] at h
  | hL e us =>
    intro t2 h
    cases t2 with
    | intermediate e2 op2 cs2 => simp [sameUpToOperation] at h
    | leaf e2 us2 =>
      simp only [sameUpToOperation, Bool.and_eq_true, decide_eq_true_eq] at h
      obtain ⟨he, hu⟩ := h
      subst he
      subst hu
      exact ⟨valid_leaf _ _, valid_leaf _ _, rfl⟩
    | unknown e2 => simp [sameUpToOperation] at h
  | hU e =>
    intro t2 h
    simp [sameUpToOperation] at h

/-- C2: for a root whose string form is not a key of the membership set and an
intermediate node with a known operation and valid children, the subject keys of
the Found-Subjects of `AddExpansion` on the node are those of the Found-Subjects
of `AddExpansion`, under the same root, on one of its children; the result is the
same for every tree that differs from the node at most in the known operations
declared, at the node or below; and a node without children gives an empty
Found-Subjects. -/
theorem addExpansion_intermediate_is_union (ms : MembershipSet) (root : ObjectAndRelation)
    (e : Option ObjectAndRelation) (op : Operation) (cs : List RelationTupleTreeNode)
    (hop : knownOperation op = true) (hcs : ∀ c ∈ cs, valid c = true)
    (hr : StringONR root ∉ ms.objectsAndRelations) :
    ∃ (fs : FoundSubjects) (ms1 : MembershipSet),
      ms.AddExpansion StringONR root (.intermediate e op cs) = (ms1, .ok (fs, true)) ∧
      (∀ k : String, k ∈ fs.subjects ↔
        ∃ c ∈ cs, ∃ (fsc : FoundSubjects) (msc : MembershipSet),
          ms.AddExpansion StringONR root c = (msc, .ok (fsc, true)) ∧ k ∈ fsc.subjects) ∧
      (∀ t2 : RelationTupleTreeNode, sameUpToOperation (.intermediate e op cs) t2 = true →
        ms.AddExpansion StringONR root t2 = (ms1, .ok (fs, true))) ∧
      (cs = [] → fs.subjects = ∅) := by
  have hl : ms.objectsAndRelations.lookup (StringONR root) = none := AList.lookup_eq_none.mpr hr
  have hv : valid (.intermediate e op cs) = true := (valid_intermediate e op cs).mpr ⟨hop, hcs⟩
  refine ⟨_, _, addExpansion_of_absent_valid StringONR ms root _ hl hv, ?_, ?_, ?_⟩
  · intro k
    simp only [mem_foldl_recordOccurrence, AList.not_mem_empty, false_or, leafOccurrences,
      leafOccurrences_children_eq, List.mem_flatMap]
    constructor
    · rintro ⟨p, ⟨c, hc, hp⟩, hk⟩
      refine ⟨c, hc, _, _, addExpansion_of_absent_valid StringONR ms root c hl (hcs c hc), ?_⟩
      exact (mem_foldl_recordOccurrence StringONR _ ∅ k).mpr (Or.inr ⟨p, hp, hk⟩)
    · rintro ⟨c, hc, fsc, msc, hrun, hk⟩
      rw [addExpansion_of_absent_valid StringONR ms root c hl (hcs c hc)] at hrun
      simp only [Prod.mk.injEq, Except.ok.injEq, and_true] at hrun
      rw [← hrun.2] at hk
      rcases (mem_foldl_recordOccurrence StringONR _ ∅ k).mp hk with hk | ⟨p, hp, hk⟩
      · exact absurd hk (AList.not_mem_empty k)
      · exact ⟨p, ⟨c, hc, hp⟩, hk⟩
  · intro t2 h2
    obtain ⟨_, hv2, hocc⟩ := sameUpToOperation_spec root _ t2 h2
    rw [addExpansion_of_absent_valid StringONR ms root t2 hl hv2, hocc]
  · intro hnil
    subst hnil
    simp [leafOccurrences, leafOccurrences.children]

/-- C2, on the new membership set, at the tree of the scenario and the same tree
with intersection in place of union. -/
theorem addExpansion_intermediate_is_union_witness :
    ∃ (fs : FoundSubjects) (ms1 : MembershipSet),
      NewMembershipSet.AddExpansion canonicalString doc1Viewer scenarioTree
        = (ms1, .ok (fs, true)) ∧
      NewMembershipSet.AddExpansion canonicalString doc1Viewer scenarioTreeIntersection
        = (ms1, .ok (fs, true)) :=
  (addExpansion_intermediate_is_union canonicalString NewMembershipSet doc1Viewer none
    SetOperationUserset_UNION [.leaf (some doc1Viewer) [alice], .leaf (some doc1Editor) [alice]]
    (by decide) (fun c hc => by
      simp only [List.mem_cons, List.mem_singleton, List.not_mem_nil, or_false] at hc
      rcases hc with hc | hc
      · rw [hc]; exact valid_leaf _ _
      · rw [hc]; exact valid_leaf _ _)
    (AList.not_mem_empty _)).elim
    (fun fs h => h.elim (fun ms1 h1 => ⟨fs, ms1, h1.1, h1.2.2.1 scenarioTreeIntersection (by rfl)⟩))

/-- C1, on the new membership set: the scenario tree is added under `doc1#viewer`,
and a later call for the same root with the malformed tree returns the same
Found-Subjects with `added = false`. -/
theorem addExpansion_first_then_existing_witness :
    ∃ (fs : FoundSubjects) (ms1 : MembershipSet),
      NewMembershipSet.AddExpansion canonicalString doc1Viewer scenarioTree
        = (ms1, .ok (fs, true)) ∧
      ms1.AddExpansion canonicalString doc1Viewer malformedTree = (ms1, .ok (fs, false)) :=
  (addExpansion_first_then_existing canonicalString NewMembershipSet doc1Viewer scenarioTree
    (by rfl) (AList.not_mem_empty _)).elim
    (fun fs h => h.elim (fun ms1 h1 => ⟨fs, ms1, h1.1, h1.2 [] doc1Viewer malformedTree rfl⟩))

/-- C4, on the new membership set: the call panics on the malformed tree and
returns on the scenario tree. -/
theorem addExpansion_panics_iff_malformed_witness :
    (∃ p, (NewMembershipSet.AddExpansion canonicalString doc1Viewer malformedTree).2
      = .error p) ∧
    (∃ fs, (NewMembershipSet.AddExpansion canonicalString doc1Viewer scenarioTree).2
      = .ok (fs, true)) :=
  ⟨(addExpansion_panics_iff_malformed canonicalString NewMembershipSet doc1Viewer malformedTree
      (AList.not_mem_empty _)).1.mpr ⟨malformedTree, List.mem_cons_self _ _, by rfl⟩,
    (addExpansion_panics_iff_malformed canonicalString NewMembershipSet doc1Viewer scenarioTree
      (AList.not_mem_empty _)).2 ((valid_iff_no_malformed scenarioTree).mp (by rfl))⟩

/-- C9, on the new membership set and the scenario tree. -/
theorem addExpansion_added_grows_by_one_witness :
    (NewMembershipSet.AddExpansion canonicalString doc1Viewer scenarioTree).1.SubjectsByONR.lookup
        (canonicalString doc1Viewer) =
      some (FoundSubjects.mk ((leafOccurrences doc1Viewer scenarioTree).foldl
        (recordOccurrence canonicalString) ∅)) ∧
    (NewMembershipSet.AddExpansion canonicalString doc1Viewer scenarioTree).1.SubjectsByONR.entries =
      ⟨canonicalString doc1Viewer, (FoundSubjects.mk ((leafOccurrences doc1Viewer scenarioTree).foldl
        (recordOccurrence canonicalString) ∅))⟩ :: NewMembershipSet.SubjectsByONR.entries :=
  have h := addExpansion_added_grows_by_one canonicalString NewMembershipSet
    (NewMembershipSet.AddExpansion canonicalString doc1Viewer scenarioTree).1 doc1Viewer
    scenarioTree (FoundSubjects.mk ((leafOccurrences doc1Viewer scenarioTree).foldl
        (recordOccurrence canonicalString) ∅))
    (by rw [addExpansion_of_absent_valid canonicalString NewMembershipSet doc1Viewer scenarioTree
      (AList.lookup_empty _) (by rfl)])
  ⟨h.2.2.1, h.2.2.2.2.2⟩

/-- C3: for a root whose string form is not a key of the membership set and a
valid tree, every subject listed in some leaf has a Found-Subject whose
`Relationships()`, as string forms, holds no string form twice and holds exactly
the identifiers attributed by the leaf occurrences listing the subject; when those
occurrences are two, attributing `a` and `b` of distinct string forms, it is
`a, b` up to order. -/
theorem relationships_exactly_attributed (ms : MembershipSet) (root : ObjectAndRelation)
    (t : RelationTupleTreeNode) (hv : valid t = true)
    (hr : StringONR root ∉ ms.objectsAndRelations) :
    ∃ (fs : FoundSubjects) (ms1 : MembershipSet),
      ms.AddExpansion StringONR root t = (ms1, .ok (fs, true)) ∧
      ∀ s : ObjectAndRelation,
        (∃ p ∈ leafOccurrences root t, StringONR p.1 = StringONR s) →
        ∃ f : FoundSubject, fs.LookupSubject StringONR s = some f ∧
          StringONR f.Subject = StringONR s ∧
          (f.Relationships.map StringONR).Nodup ∧
          (∀ x : String, x ∈ f.Relationships.map StringONR ↔
            ∃ p ∈ leafOccurrences root t, StringONR p.1 = StringONR s ∧ StringONR p.2 = x) ∧
          ∀ a b : ObjectAndRelation,
            ((leafOccurrences root t).filter
              (fun p => decide (StringONR p.1 = StringONR s))).map Prod.snd = [a, b] →
            StringONR a ≠ StringONR b →
            (f.Relationships.map StringONR).Perm [StringONR a, StringONR b] := by
  have hl : ms.objectsAndRelations.lookup (StringONR root) = none := AList.lookup_eq_none.mpr hr
  refine ⟨_, _, addExpansion_of_absent_valid StringONR ms root t hl hv, ?_⟩
  intro s hs
  have hmem : StringONR s ∈ (leafOccurrences root t).foldl (recordOccurrence StringONR) ∅ := by
    obtain ⟨p, hp, hps⟩ := hs
    exact (mem_foldl_recordOccurrence StringONR _ ∅ _).mpr (Or.inr ⟨p, hp, hps.symm⟩)
  obtain ⟨f, hf⟩ := Option.isSome_iff_exists.mp (AList.lookup_isSome.mpr hmem)
  obtain ⟨h1, h2, _, h4⟩ := entry_foldl_empty StringONR _ _ f hf
  have hrel : ∀ x : String, x ∈ f.Relationships.map StringONR ↔
      ∃ p ∈ leafOccurrences root t, StringONR p.1 = StringONR s ∧ StringONR p.2 = x := by
    intro x
    rw [show f.Relationships = f.relationships.onrs from rfl, h4 x]
    constructor
    · rintro ⟨p, hp, hk, hx⟩
      exact ⟨p, hp, hk.symm, hx.symm⟩
    · rintro ⟨p, hp, hk, hx⟩
      exact ⟨p, hp, hk.symm, hx.symm⟩
  refine ⟨f, hf, h1, h2, hrel, ?_⟩
  intro a b hab hne
  refine (List.perm_ext_iff_of_nodup h2 ?_).mpr ?_
  · simp [hne]
  · intro x
    show x ∈ List.map StringONR f.Relationships ↔ _
    rw [hrel x]
    have hsnd : ∀ r : ObjectAndRelation, r ∈ [a, b] ↔
        ∃ p ∈ leafOccurrences root t, StringONR p.1 = StringONR s ∧ p.2 = r := by
      intro r
      rw [← hab]
      simp only [List.mem_map, List.mem_filter, decide_eq_true_eq]
      constructor
      · rintro ⟨p, ⟨hp, hk⟩, hx⟩
        exact ⟨p, hp, hk, hx⟩
      · rintro ⟨p, hp, hk, hx⟩
        exact ⟨p, ⟨hp, hk⟩, hx⟩
    constructor
    · rintro ⟨p, hp, hk, hx⟩
      have hin : p.2 ∈ [a, b] := (hsnd p.2).mpr ⟨p, hp, hk, rfl⟩
      simp only [List.mem_cons, List.mem_singleton, List.not_mem_nil, or_false] at hin ⊢
      rcases hin with hin | hin
      · left; rw [← hx, hin]
      · right; rw [← hx, hin]
    · intro hx
      simp only [List.mem_cons, List.mem_singleton, List.not_mem_nil, or_false] at hx
      rcases hx with hx | hx
      · obtain ⟨p, hp, hk, hpa⟩ := (hsnd a).mp (by simp)
        exact ⟨p, hp, hk, by rw [hpa, hx]⟩
      · obtain ⟨p, hp, hk, hpb⟩ := (hsnd b).mp (by simp)
        exact ⟨p, hp, hk, by rw [hpb, hx]⟩

/-- C3, on the new membership set, the scenario tree and the subject `alice`,
listed by two leaves that attribute `doc1#viewer` and `doc1#editor`. -/
theorem relationships_exactly_attributed_witness :
    ∃ (fs : FoundSubjects) (f : FoundSubject),
      (NewMembershipSet.AddExpansion canonicalString doc1Viewer scenarioTree).2
        = .ok (fs, true) ∧
      fs.LookupSubject canonicalString alice = some f ∧
      (f.Relationships.map canonicalString).Perm
        [canonicalString doc1Viewer, canonicalString doc1Editor] :=
  (relationships_exactly_attributed canonicalString NewMembershipSet doc1Viewer scenarioTree
    (by rfl) (AList.not_mem_empty _)).elim
    (fun fs h => h.elim (fun _ h1 =>
      (h1.2 alice ⟨(alice, doc1Viewer), by decide, rfl⟩).elim
        (fun f hf => ⟨fs, f, by rw [h1.1], hf.1,
          hf.2.2.2.2 doc1Viewer doc1Editor (by decide) (by decide)⟩)))

/-- C7: for a root whose string form is not a key of the membership set and a
valid tree, the Found-Subjects of `AddExpansion` has one entry per distinct subject
string form of the leaves and no other: `ListFound()` has as many elements as there
are distinct subject string forms, the keys are those string forms, each entry is
stored under the string form of its own `Subject()`, and `LookupSubject(s)` finds
an entry, which is then one of `ListFound()` with the string form of `s`, iff some
leaf lists a subject with the string form of `s`. -/
theorem addExpansion_one_entry_per_subject (ms : MembershipSet) (root : ObjectAndRelation)
    (t : RelationTupleTreeNode) (hv : valid t = true)
    (hr : StringONR root ∉ ms.objectsAndRelations) :
    ∃ (fs : FoundSubjects) (ms1 : MembershipSet),
      ms.AddExpansion StringONR root t = (ms1, .ok (fs, true)) ∧
      fs.ListFound.length =
        ((leafOccurrences root t).map (fun p => StringONR p.1)).toFinset.card ∧
      (∀ k : String, k ∈ fs.subjects ↔ ∃ p ∈ leafOccurrences root t, StringONR p.1 = k) ∧
      (∀ (k : String) (f : FoundSubject), fs.subjects.lookup k = some f →
        StringONR f.Subject = k) ∧
      (∀ f ∈ fs.ListFound, fs.subjects.lookup (StringONR f.Subject) = some f) ∧
      (∀ s : ObjectAndRelation, (fs.LookupSubject StringONR s).isSome = true ↔
        ∃ p ∈ leafOccurrences root t, StringONR p.1 = StringONR s) ∧
      (∀ (s : ObjectAndRelation) (f : FoundSubject), fs.LookupSubject StringONR s = some f →
        f ∈ fs.ListFound ∧ StringONR f.Subject = StringONR s) := by
  have hl : ms.objectsAndRelations.lookup (StringONR root) = none := AList.lookup_eq_none.mpr hr
  refine ⟨_, _, addExpansion_of_absent_valid StringONR ms root t hl hv, ?_⟩
  have hkeys : ∀ k : String,
      k ∈ (leafOccurrences root t).foldl (recordOccurrence StringONR) ∅ ↔
        ∃ p ∈ leafOccurrences root t, StringONR p.1 = k := by
    intro k
    rw [mem_foldl_recordOccurrence]
    constructor
    · rintro (h | ⟨p, hp, hk⟩)
      · exact absurd h (AList.not_mem_empty k)
      · exact ⟨p, hp, hk.symm⟩
    · rintro ⟨p, hp, hk⟩
      exact Or.inr ⟨p, hp, hk.symm⟩
  have hsub : ∀ (k : String) (f : FoundSubject),
      ((leafOccurrences root t).foldl (recordOccurrence StringONR) ∅).lookup k = some f →
        StringONR f.Subject = k := fun k f h => (entry_foldl_empty StringONR _ k f h).1
  have hlist : ∀ (k : String) (f : FoundSubject),
      ((leafOccurrences root t).foldl (recordOccurrence StringONR) ∅).lookup k = some f →
        f ∈ (FoundSubjects.mk
          ((leafOccurrences root t).foldl (recordOccurrence StringONR) ∅)).ListFound := by
    intro k f h
    rw [listFound_eq_map]
    exact List.mem_map.mpr ⟨⟨k, f⟩, AList.mem_lookup_iff.mp (Option.mem_def.mpr h), rfl⟩
  refine ⟨?_, hkeys, hsub, ?_, ?_, ?_⟩
  · rw [listFound_eq_map, List.length_map]
    have hfin : ((leafOccurrences root t).map (fun p => StringONR p.1)).toFinset =
        ((leafOccurrences root t).foldl (recordOccurrence StringONR) ∅).keys.toFinset := by
      ext k
      simp only [List.mem_toFinset, List.mem_map, ← AList.mem_keys, hkeys]
    rw [hfin, List.toFinset_card_of_nodup (AList.keys_nodup _)]
    simp [AList.keys, List.keys]
  · intro f hf
    rw [listFound_eq_map] at hf
    obtain ⟨⟨k, f'⟩, hmem, heq⟩ := List.mem_map.mp hf
    simp only at heq
    subst heq
    have hlook := Option.mem_def.mp (AList.mem_lookup_iff.mpr hmem)
    rw [hsub k f' hlook]
    exact hlook
  · intro s
    simp only [FoundSubjects.LookupSubject, AList.lookup_isSome, hkeys]
  · intro s f hf
    exact ⟨hlist _ f hf, hsub _ f hf⟩

/-- C7, on the new membership set and the scenario tree, whose two leaves list the
one subject `alice`. -/
theorem addExpansion_one_entry_per_subject_witness :
    ∃ (fs : FoundSubjects) (ms1 : MembershipSet),
      NewMembershipSet.AddExpansion canonicalString doc1Viewer scenarioTree
        = (ms1, .ok (fs, true)) ∧
      fs.ListFound.length = 1 ∧
      (fs.LookupSubject canonicalString alice).isSome = true ∧
      (fs.LookupSubject canonicalString doc1Editor).isSome = false :=
  (addExpansion_one_entry_per_subject canonicalString NewMembershipSet doc1Viewer scenarioTree
    (by rfl) (AList.not_mem_empty _)).elim
    (fun fs h => h.elim (fun ms1 h1 => ⟨fs, ms1, h1.1, h1.2.1.trans (by decide),
      (h1.2.2.2.2.2.1 alice).mpr ⟨(alice, doc1Viewer), by decide, rfl⟩,
      Bool.eq_false_iff.mpr (fun hsome =>
        absurd ((h1.2.2.2.2.2.1 doc1Editor).mp hsome) (by decide))⟩))

/-- C8: on a new membership set, `AddExpansion` with root `doc1#viewer` and the tree
`union(leaf[alice, expanded-as doc1#viewer], leaf[alice, expanded-as doc1#editor])`
returns `added = true` and a Found-Subjects with exactly one entry, for `alice`,
whose Relationship-Path Set is `doc1#viewer, doc1#editor`: literally so under the
canonical string form, and, whatever the string form of identifiers, as one entry
for `alice` whose set holds the string forms of `doc1#viewer` and `doc1#editor`
and no other. -/
theorem scenario_alice_viewer_editor :
    (∃ (fs : FoundSubjects) (ms1 : MembershipSet),
      NewMembershipSet.AddExpansion canonicalString doc1Viewer scenarioTree
        = (ms1, .ok (fs, true)) ∧
      fs.ListFound.map (fun f => (f.Subject, f.Relationships))
        = [(alice, [doc1Viewer, doc1Editor])] ∧
      (fs.LookupSubject canonicalString alice).map (fun f => (f.Subject, f.Relationships))
        = some (alice, [doc1Viewer, doc1Editor])) ∧
    ∀ StringONR : ObjectAndRelation → String,
      ∃ (fs : FoundSubjects) (ms1 : MembershipSet) (f : FoundSubject),
        NewMembershipSet.AddExpansion StringONR doc1Viewer scenarioTree
          = (ms1, .ok (fs, true)) ∧
        fs.ListFound = [f] ∧ f.Subject = alice ∧
        fs.LookupSubject StringONR alice = some f ∧
        ∀ x : String, x ∈ f.Relationships.map StringONR ↔
          x = StringONR doc1Viewer ∨ x = StringONR doc1Editor := by
  refine ⟨⟨_, _, rfl, by rfl, by rfl⟩, ?_⟩
  intro StringONR
  have hrun := addExpansion_of_absent_valid StringONR NewMembershipSet doc1Viewer scenarioTree
    (AList.lookup_empty _) (by rfl)
  have hocc : leafOccurrences doc1Viewer scenarioTree =
      [(alice, doc1Viewer), (alice, doc1Editor)] := by rfl
  rw [hocc] at hrun
  have hfold : [(alice, doc1Viewer), (alice, doc1Editor)].foldl (recordOccurrence StringONR) ∅ =
      (∅ : GoMap FoundSubject).insert (StringONR alice)
        { subject := alice,
          relationships := (NewONRSet.Add StringONR doc1Viewer).Add StringONR doc1Editor } := by
    simp only [List.foldl_cons, List.foldl_nil, recordOccurrence, AList.lookup_empty,
      AList.lookup_insert, AList.insert_insert]
  rw [hfold] at hrun
  refine ⟨_, _,
    FoundSubject.mk alice ((NewONRSet.Add StringONR doc1Viewer).Add StringONR doc1Editor),
    hrun, ?_, rfl, ?_, ?_⟩
  · simp [listFound_eq_map]
  · exact AList.lookup_insert _
  · intro x
    show x ∈ List.map StringONR
      ((NewONRSet.Add StringONR doc1Viewer).Add StringONR doc1Editor).onrs ↔ _
    rw [ONRSet.mem_add, ONRSet.mem_add]
    simp [NewONRSet]

/-! ### Attribution -/

/-- The leaf occurrences of a tree are the subjects of its leaves, at any depth,
each with the `Expanded` identifier of its leaf, or the root when the leaf has none. -/
theorem mem_leafOccurrences_iff (root : ObjectAndRelation) :
    ∀ (t : RelationTupleTreeNode) (p : ObjectAndRelation × ObjectAndRelation),
      p ∈ leafOccurrences root t ↔
        ∃ (e : Option ObjectAndRelation) (us : List ObjectAndRelation),
          RelationTupleTreeNode.leaf e us ∈ nodes t ∧ p.1 ∈ us ∧ p.2 = e.getD root := by
  intro t
  induction t using RelationTupleTreeNode.induction with
  | hI e op cs ih =>
    intro p
    simp only [leafOccurrences, leafOccurrences_children_eq, nodes, nodes_children_eq,
      List.mem_flatMap, List.mem_cons, reduceCtorEq, false_or]
    constructor
    · rintro ⟨c, hc, hp⟩
      obtain ⟨e1, us, hn, h1, h2⟩ := (ih c hc p).mp hp
      exact ⟨e1, us, ⟨c, hc, hn⟩, h1, h2⟩
    · rintro ⟨e1, us, ⟨c, hc, hn⟩, h1, h2⟩
      exact ⟨c, hc, (ih c hc p).mpr ⟨e1, us, hn, h1, h2⟩⟩
  | hL e us =>
    intro p
    cases e with
    | none =>
      simp only [leafOccurrences, nodes, List.mem_map, List.mem_singleton,
        RelationTupleTreeNode.leaf.injEq]
      constructor
      · rintro ⟨u, hu, rfl⟩
        exact ⟨none, us, ⟨rfl, rfl⟩, hu, rfl⟩
      · rintro ⟨e1, us1, ⟨rfl, rfl⟩, h1, h2⟩
        exact ⟨p.1, h1, Prod.ext rfl h2.symm⟩
    | some e0 =>
      simp only [leafOccurrences, nodes, List.mem_map, List.mem_singleton,
        RelationTupleTreeNode.leaf.injEq]
      constructor
      · rintro ⟨u, hu, rfl⟩
        exact ⟨some e0, us, ⟨rfl, rfl⟩, hu, rfl⟩
      · rintro ⟨e1, us1, ⟨rfl, rfl⟩, h1, h2⟩
        exact ⟨p.1, h1, Prod.ext rfl h2.symm⟩
  | hU e =>
    intro p
    simp [leafOccurrences, nodes]

theorem populate_children_congr (root : ObjectAndRelation) (c1 : List RelationTupleTreeNode)
    (ih : ∀ c ∈ c1, ∀ t2, sameUpToIntermediateExpanded c t2 = true →
      ∀ m : GoMap FoundSubject,
        populateFoundSubjects StringONR m root t2 = populateFoundSubjects StringONR m root c) :
    ∀ c2, sameUpToIntermediateExpanded.children c1 c2 = true →
      ∀ m : GoMap FoundSubject,
        populateFoundSubjects.children StringONR m root c2 =
          populateFoundSubjects.children StringONR m root c1 := by
  induction c1 with
  | nil =>
    intro c2 h m
    cases c2 with
    | nil => rfl
    | cons b bs => simp [sameUpToIntermediateExpanded.children] at h
  | cons a as ihl =>
    intro c2 h m
    cases c2 with
    | nil => simp [sameUpToIntermediateExpanded.children] at h
    | cons b bs =>
      simp only [sameUpToIntermediateExpanded.children, Bool.and_eq_true] at h
      simp only [populateFoundSubjects.children, ih a (List.mem_cons_self _ _) b h.1 m]
      cases populateFoundSubjects StringONR m root a with
      | error p => rfl
      | ok m1 => exact ihl (fun c hc => ih c (List.mem_cons_of_mem _ hc)) bs h.2 m1

/-- The walk does not read the `Expanded` identifier of an intermediate node. -/
theorem populate_congr (root : ObjectAndRelation) :
    ∀ t1 t2 : RelationTupleTreeNode, sameUpToIntermediateExpanded t1 t2 = true →
      ∀ m : GoMap FoundSubject,
        populateFoundSubjects StringONR m root t2 = populateFoundSubjects StringONR m root t1 := by
  intro t1
  induction t1 using RelationTupleTreeNode.induction with
  | hI e op cs ih =>
    intro t2 h m
    cases t2 with
    | intermediate e2 op2 cs2 =>
      simp only [sameUpToIntermediateExpanded, Bool.and_eq_true, decide_eq_true_eq] at h
      obtain ⟨hop, hc⟩ := h
      subst hop
      simp only [populateFoundSubjects, populate_children_congr StringONR root cs ih cs2 hc m]
    | leaf e2 us2 => simp [sameUpToIntermediateExpanded] at h
    | unknown e2 => simp [sameUpToIntermediateExpanded] at h
  | hL e us =>
    intro t2 h m
    cases t2 with
    | intermediate e2 op2 cs2 => simp [sameUpToIntermediateExpanded] at h
    | leaf e2 us2 =>
      simp only [sameUpToIntermediateExpanded, Bool.and_eq_true, decide_eq_true_eq] at h
      obtain ⟨he, hu⟩ := h
      subst he
      subst hu
      rfl
    | unknown e2 => simp [sameUpToIntermediateExpanded] at h
  | hU e =>
    intro t2 h m
    cases t2 with
    | intermediate e2 op2 cs2 => simp [sameUpToIntermediateExpanded] at h
    | leaf e2 us2 => simp [sameUpToIntermediateExpanded] at h
    | unknown e2 => simp [populateFoundSubjects]

/-- C13: for a root whose string form is not a key of the membership set and a
valid tree, the string forms in the Relationship-Path Set of the entry of a subject
are those of the identifiers attributed by the leaves listing the subject, at any
depth: the `Expanded` identifier of the leaf itself when it has one, the root
otherwise; and a tree that differs at most in the `Expanded` identifiers of
intermediate nodes gives the same outcome of `AddExpansion`, on every membership
set and for every root. -/
theorem attribution_is_leaf_expanded_or_root (ms : MembershipSet) (root : ObjectAndRelation)
    (t : RelationTupleTreeNode) (hv : valid t = true)
    (hr : StringONR root ∉ ms.objectsAndRelations) :
    ∃ (fs : FoundSubjects) (ms1 : MembershipSet),
      ms.AddExpansion StringONR root t = (ms1, .ok (fs, true)) ∧
      (∀ k x : String,
        (∃ f, fs.subjects.lookup k = some f ∧ x ∈ f.Relationships.map StringONR) ↔
          ∃ (e : Option ObjectAndRelation) (us : List ObjectAndRelation),
            RelationTupleTreeNode.leaf e us ∈ nodes t ∧
              ∃ u ∈ us, StringONR u = k ∧ x = StringONR (e.getD root)) ∧
      ∀ t2 : RelationTupleTreeNode, sameUpToIntermediateExpanded t t2 = true →
        ∀ (ms2 : MembershipSet) (root2 : ObjectAndRelation),
          ms2.AddExpansion StringONR root2 t2 = ms2.AddExpansion StringONR root2 t := by
  have hl : ms.objectsAndRelations.lookup (StringONR root) = none := AList.lookup_eq_none.mpr hr
  refine ⟨_, _, addExpansion_of_absent_valid StringONR ms root t hl hv, ?_, ?_⟩
  · intro k x
    have hiff := rel_foldl_recordOccurrence_iff StringONR (leafOccurrences root t) ∅ k x
    simp only [AList.lookup_empty, false_and, exists_false, false_or, reduceCtorEq] at hiff
    show (∃ f : FoundSubject, _ ∧ x ∈ List.map StringONR f.relationships.onrs) ↔ _
    rw [hiff]
    constructor
    · rintro ⟨p, hp, hk, hx⟩
      obtain ⟨e, us, hn, h1, h2⟩ := (mem_leafOccurrences_iff root t p).mp hp
      exact ⟨e, us, hn, p.1, h1, hk.symm, by rw [hx, h2]⟩
    · rintro ⟨e, us, hn, u, hu, hk, hx⟩
      exact ⟨(u, e.getD root), (mem_leafOccurrences_iff root t _).mpr ⟨e, us, hn, hu, rfl⟩,
        hk.symm, hx⟩
  · intro t2 h2 ms2 root2
    simp only [MembershipSet.AddExpansion, populate_congr StringONR root2 t t2 h2]

/-- C13, on the new membership set: the tree whose leaf without `Expanded` sits
below intermediate nodes carrying one gives the outcome of the tree without those
identifiers. -/
theorem attribution_is_leaf_expanded_or_root_witness :
    NewMembershipSet.AddExpansion canonicalString doc1Viewer expandedAboveTreeBare =
      NewMembershipSet.AddExpansion canonicalString doc1Viewer expandedAboveTree :=
  (attribution_is_leaf_expanded_or_root canonicalString NewMembershipSet doc1Viewer
    expandedAboveTree (by rfl) (AList.not_mem_empty _)).elim
    (fun _ h => h.elim (fun _ h1 =>
      h1.2.2 expandedAboveTreeBare (by rfl) NewMembershipSet doc1Viewer))

/-! ### Panics, the invariant of stored entries, and the order of the walk -/

/-- C14: when `AddExpansion(root, tree)` panics, the membership set is left as it
was before the call and has no entry under the string form of `root`; a later
`AddExpansion` for the same root with a valid tree returns `added = true`. -/
theorem addExpansion_panic_leaves_set (ms : MembershipSet) (root : ObjectAndRelation)
    (t : RelationTupleTreeNode) (p : String)
    (h : (ms.AddExpansion StringONR root t).2 = .error p) :
    (ms.AddExpansion StringONR root t).1 = ms ∧
    StringONR root ∉ (ms.AddExpansion StringONR root t).1.SubjectsByONR ∧
    ∀ t2 : RelationTupleTreeNode, valid t2 = true →
      ∃ (fs : FoundSubjects) (ms2 : MembershipSet),
        (ms.AddExpansion StringONR root t).1.AddExpansion StringONR root t2 =
          (ms2, .ok (fs, true)) := by
  cases hl : ms.objectsAndRelations.lookup (StringONR root) with
  | some existing =>
    rw [addExpansion_of_present StringONR ms root t existing hl] at h
    cases h
  | none =>
    cases hv : valid t with
    | true =>
      rw [addExpansion_of_absent_valid StringONR ms root t hl hv] at h
      cases h
    | false =>
      obtain ⟨q, hq⟩ := addExpansion_of_absent_invalid StringONR ms root t hl hv
      rw [hq]
      refine ⟨rfl, AList.lookup_eq_none.mp hl, fun t2 hv2 => ?_⟩
      exact ⟨_, _, addExpansion_of_absent_valid StringONR ms root t2 hl hv2⟩

/-- C14, on the new membership set, at a tree in which the walk collects `alice`
before it reaches the malformed node. -/
theorem addExpansion_panic_leaves_set_witness :
    (NewMembershipSet.AddExpansion canonicalString doc1Viewer lateMalformedTree).1
      = NewMembershipSet ∧
    ∃ (fs : FoundSubjects) (ms2 : MembershipSet),
      (NewMembershipSet.AddExpansion canonicalString doc1Viewer
        lateMalformedTree).1.AddExpansion canonicalString doc1Viewer scenarioTree =
          (ms2, .ok (fs, true)) :=
  have h := addExpansion_panic_leaves_set canonicalString NewMembershipSet doc1Viewer
    lateMalformedTree "unknown TreeNode type" (by rfl)
  ⟨h.1, h.2.2 scenarioTree (by rfl)⟩

theorem relationships_nonempty_addExpansion (ms : MembershipSet) (root : ObjectAndRelation)
    (t : RelationTupleTreeNode)
    (hinv : ∀ (k : String) (fs : FoundSubjects), ms.objectsAndRelations.lookup k = some fs →
      ∀ (k2 : String) (f : FoundSubject), fs.subjects.lookup k2 = some f →
        f.relationships.onrs ≠ []) :
    ∀ (k : String) (fs : FoundSubjects),
      (ms.AddExpansion StringONR root t).1.objectsAndRelations.lookup k = some fs →
      ∀ (k2 : String) (f : FoundSubject), fs.subjects.lookup k2 = some f →
        f.relationships.onrs ≠ [] := by
  cases hl : ms.objectsAndRelations.lookup (StringONR root) with
  | some existing =>
    rw [addExpansion_of_present StringONR ms root t existing hl]
    exact hinv
  | none =>
    cases hv : valid t with
    | false =>
      obtain ⟨q, hq⟩ := addExpansion_of_absent_invalid StringONR ms root t hl hv
      rw [hq]
      exact hinv
    | true =>
      rw [addExpansion_of_absent_valid StringONR ms root t hl hv]
      intro k fs hk k2 f hf
      by_cases hkr : k = StringONR root
      · subst hkr
        simp only [AList.lookup_insert, Option.some.injEq] at hk
        subst hk
        exact (entry_foldl_empty StringONR _ k2 f hf).2.2.1
      · simp only [AList.lookup_insert_ne hkr] at hk
        exact hinv k fs hk k2 f hf

theorem relationships_nonempty_afterCalls
    (calls : List (ObjectAndRelation × RelationTupleTreeNode)) :
    ∀ ms : MembershipSet,
      (∀ (k : String) (fs : FoundSubjects), ms.objectsAndRelations.lookup k = some fs →
        ∀ (k2 : String) (f : FoundSubject), fs.subjects.lookup k2 = some f →
          f.relationships.onrs ≠ []) →
      ∀ (k : String) (fs : FoundSubjects),
        (ms.afterCalls StringONR calls).objectsAndRelations.lookup k = some fs →
        ∀ (k2 : String) (f : FoundSubject), fs.subjects.lookup k2 = some f →
          f.relationships.onrs ≠ [] := by
  induction calls with
  | nil => intro ms hinv; exact hinv
  | cons call rest ih =>
    intro ms hinv
    simp only [MembershipSet.afterCalls, List.foldl_cons]
    exact ih _ (relationships_nonempty_addExpansion StringONR ms call.1 call.2 hinv)

/-- C16: in every membership set reached from `NewMembershipSet` by `AddExpansion`
calls, every Found-Subject stored under any root, be it read by `LookupSubject` or
listed by `ListFound`, has a `Relationships()` that is not empty. -/
theorem stored_relationships_nonempty
    (calls : List (ObjectAndRelation × RelationTupleTreeNode)) (k : String) (fs : FoundSubjects)
    (hk : (NewMembershipSet.afterCalls StringONR calls).SubjectsByONR.lookup k = some fs) :
    (∀ (s : ObjectAndRelation) (f : FoundSubject), fs.LookupSubject StringONR s = some f →
      f.Relationships ≠ []) ∧
    ∀ f ∈ fs.ListFound, f.Relationships ≠ [] := by
  have hall : ∀ (k2 : String) (f : FoundSubject), fs.subjects.lookup k2 = some f →
      f.relationships.onrs ≠ [] :=
    relationships_nonempty_afterCalls StringONR calls NewMembershipSet
      (fun k1 fs1 h1 => by simp [NewMembershipSet] at h1) k fs hk
  refine ⟨fun s f hf => hall _ f hf, fun f hf => ?_⟩
  rw [listFound_eq_map] at hf
  obtain ⟨⟨k2, f2⟩, hmem, heq⟩ := List.mem_map.mp hf
  simp only at heq
  subst heq
  exact hall k2 f2 (Option.mem_def.mp (AList.mem_lookup_iff.mpr hmem))

/-- C16, after the call with the scenario tree and a panicking call: the entry of
`alice` stored under `doc1#viewer`. -/
theorem stored_relationships_nonempty_witness :
    (NewMembershipSet.afterCalls canonicalString
        [(doc1Viewer, scenarioTree), (doc1Editor, lateMalformedTree)]).SubjectsByONR.lookup
        (canonicalString doc1Viewer) =
      some (FoundSubjects.mk ((leafOccurrences doc1Viewer scenarioTree).foldl
        (recordOccurrence canonicalString) ∅)) ∧
    (FoundSubjects.mk ((leafOccurrences doc1Viewer scenarioTree).foldl
        (recordOccurrence canonicalString) ∅)).LookupSubject canonicalString alice =
      some (FoundSubject.mk alice (ONRSet.mk [doc1Viewer, doc1Editor])) ∧
    (FoundSubject.mk alice (ONRSet.mk [doc1Viewer, doc1Editor])).Relationships ≠ [] :=
  ⟨by rfl, by rfl,
    (stored_relationships_nonempty canonicalString
      [(doc1Viewer, scenarioTree), (doc1Editor, lateMalformedTree)]
      (canonicalString doc1Viewer)
      (FoundSubjects.mk ((leafOccurrences doc1Viewer scenarioTree).foldl
        (recordOccurrence canonicalString) ∅)) (by rfl)).1 alice
      (FoundSubject.mk alice (ONRSet.mk [doc1Viewer, doc1Editor])) (by rfl)⟩

theorem valid_eq_of_forall_iff (e : Option ObjectAndRelation) (op : Operation)
    (cs1 cs2 : List RelationTupleTreeNode)
    (h : (∀ c ∈ cs1, valid c = true) ↔ (∀ c ∈ cs2, valid c = true)) :
    valid (.intermediate e op cs1) = valid (.intermediate e op cs2) := by
  rw [Bool.eq_iff_iff, valid_intermediate, valid_intermediate, h]

/-- Permuting children and listed subjects keeps validity and keeps the leaf
occurrences up to their order. -/
theorem TreePerm.spec (root : ObjectAndRelation) {t1 t2 : RelationTupleTreeNode}
    (h : TreePerm t1 t2) :
    valid t1 = valid t2 ∧ (leafOccurrences root t1).Perm (leafOccurrences root t2) := by
  induction h with
  | refl t => exact ⟨rfl, List.Perm.refl _⟩
  | trans _ _ ih1 ih2 => exact ⟨ih1.1.trans ih2.1, ih1.2.trans ih2.2⟩
  | users e hp =>
    refine ⟨by rw [valid_leaf, valid_leaf], ?_⟩
    cases e with
    | none => exact hp.map _
    | some e0 => exact hp.map _
  | children e op hp =>
    refine ⟨valid_eq_of_forall_iff e op _ _ ?_, ?_⟩
    · constructor
      · intro hall c hc
        exact hall c (hp.mem_iff.mpr hc)
      · intro hall c hc
        exact hall c (hp.mem_iff.mp hc)
    · simp only [leafOccurrences, leafOccurrences_children_eq]
      exact hp.flatMap_right _
  | child e op before after _ ih =>
    refine ⟨valid_eq_of_forall_iff e op _ _ ?_, ?_⟩
    · simp only [List.mem_append, List.mem_cons]
      constructor
      · intro hall c hc
        rcases hc with hc | hc | hc
        · exact hall c (Or.inl hc)
        · rw [hc, ← ih.1]
          exact hall _ (Or.inr (Or.inl rfl))
        · exact hall c (Or.inr (Or.inr hc))
      · intro hall c hc
        rcases hc with hc | hc | hc
        · exact hall c (Or.inl hc)
        · rw [hc, ih.1]
          exact hall _ (Or.inr (Or.inl rfl))
        · exact hall c (Or.inr (Or.inr hc))
    · simp only [leafOccurrences, leafOccurrences_children_eq, List.flatMap_append,
        List.flatMap_cons]
      exact List.Perm.append_left _ (List.Perm.append_right _ ih.2)

/-- C17: for a root whose string form is not a key of the membership set and a
valid tree, permuting the children of intermediate nodes or the subjects listed in
leaves gives a result with the same subject string forms and, for each of them, the
same set of attributed identifier string forms. -/
theorem addExpansion_order_independent (ms : MembershipSet) (root : ObjectAndRelation)
    (t1 t2 : RelationTupleTreeNode) (hv : valid t1 = true) (hp : TreePerm t1 t2)
    (hr : StringONR root ∉ ms.objectsAndRelations) :
    ∃ (fs1 fs2 : FoundSubjects) (ms1 ms2 : MembershipSet),
      ms.AddExpansion StringONR root t1 = (ms1, .ok (fs1, true)) ∧
      ms.AddExpansion StringONR root t2 = (ms2, .ok (fs2, true)) ∧
      (∀ k : String, k ∈ fs1.subjects ↔ k ∈ fs2.subjects) ∧
      ∀ k x : String,
        (∃ f, fs1.subjects.lookup k = some f ∧ x ∈ f.Relationships.map StringONR) ↔
          (∃ f, fs2.subjects.lookup k = some f ∧ x ∈ f.Relationships.map StringONR) := by
  have hl : ms.objectsAndRelations.lookup (StringONR root) = none := AList.lookup_eq_none.mpr hr
  obtain ⟨hvalid, hperm⟩ := TreePerm.spec root hp
  have hv2 : valid t2 = true := hvalid ▸ hv
  refine ⟨_, _, _, _, addExpansion_of_absent_valid StringONR ms root t1 hl hv,
    addExpansion_of_absent_valid StringONR ms root t2 hl hv2, ?_, ?_⟩
  · intro k
    simp only [mem_foldl_recordOccurrence, hperm.mem_iff]
  · intro k x
    have h1 := rel_foldl_recordOccurrence_iff StringONR (leafOccurrences root t1) ∅ k x
    have h2 := rel_foldl_recordOccurrence_iff StringONR (leafOccurrences root t2) ∅ k x
    show (∃ f : FoundSubject, _ ∧ x ∈ List.map StringONR f.relationships.onrs) ↔
      (∃ f : FoundSubject, _ ∧ x ∈ List.map StringONR f.relationships.onrs)
    rw [h1, h2]
    simp only [hperm.mem_iff]

/-- C17, on the new membership set, at the scenario tree and the same tree with
its two children swapped. -/
theorem addExpansion_order_independent_witness :
    ∃ (fs1 fs2 : FoundSubjects) (ms1 ms2 : MembershipSet),
      NewMembershipSet.AddExpansion canonicalString doc1Viewer scenarioTree
        = (ms1, .ok (fs1, true)) ∧
      NewMembershipSet.AddExpansion canonicalString doc1Viewer scenarioTreeSwapped
        = (ms2, .ok (fs2, true)) ∧
      ∀ k : String, k ∈ fs1.subjects ↔ k ∈ fs2.subjects :=
  (addExpansion_order_independent canonicalString NewMembershipSet doc1Viewer scenarioTree
    scenarioTreeSwapped (by rfl)
    (TreePerm.children none SetOperationUserset_UNION (List.Perm.swap _ _ []))
    (AList.not_mem_empty _)).elim
    (fun fs1 h => h.elim (fun fs2 h2 => h2.elim (fun ms1 h3 => h3.elim (fun ms2 h4 =>
      ⟨fs1, fs2, ms1, ms2, h4.1, h4.2.1, h4.2.2.1⟩))))

end

end Membership

end SpiceDB
